import Mathlib

/-!
Shallow embedding of the QAFAXTestAutomation verification and negotiation
engine (src/app/verify/pipeline.py, src/app/verify/metrics/lines.py,
src/app/verify/metrics/ocr.py, src/app/verify/align.py,
src/app/core/fax_simulation.py), together with theorems settling the
specification claims about it.

Modelling conventions:
* Python floats are modelled as rationals (ℚ); all threshold comparisons in
  the source are order comparisons that ℚ represents exactly.
* Python lists become Lean lists, Python sets of metric names become Lean
  lists queried by membership.
* Free-text detail strings that no claim depends on are reproduced
  structurally (or as a fixed rendering) where exact formatting is
  irrelevant.
-/

namespace QAFax

/-! ## Data model: MetricResult (src/app/verify/pipeline.py, MetricResult) -/

structure MetricResult where
  name : String
  value : Option ℚ
  status : String
  detail : String
  deriving DecidableEq, Repr

/-! ## Verdict derivation (src/app/verify/pipeline.py, VerificationPipeline._derive_verdict)

The Python loop starts with verdict "PASS", returns "FAIL" on the first
metric whose status is FAIL and whose name qualifies against the hard set
(an empty hard set qualifies every name), and downgrades the running
verdict to "WARN" on a WARN/SKIP metric named in the warn set. -/

def deriveVerdictLoop (hard warn : List String) : List MetricResult → String → String
  | [], verdict => verdict
  | m :: rest, verdict =>
    if m.status = "FAIL" ∧ (hard = [] ∨ m.name ∈ hard) then "FAIL"
    else if (m.status = "WARN" ∨ m.status = "SKIP") ∧ m.name ∈ warn then
      deriveVerdictLoop hard warn rest "WARN"
    else
      deriveVerdictLoop hard warn rest verdict

def deriveVerdict (hard warn : List String) (metrics : List MetricResult) : String :=
  deriveVerdictLoop hard warn metrics "PASS"

/-- Some metric has status FAIL and qualifies against the hard set. -/
def hasHardFail (hard : List String) (metrics : List MetricResult) : Prop :=
  ∃ m ∈ metrics, m.status = "FAIL" ∧ (hard = [] ∨ m.name ∈ hard)

/-- Some metric has status WARN or SKIP and its name is in the warn set. -/
def hasWarnable (warn : List String) (metrics : List MetricResult) : Prop :=
  ∃ m ∈ metrics, (m.status = "WARN" ∨ m.status = "SKIP") ∧ m.name ∈ warn

instance (hard : List String) (metrics : List MetricResult) :
    Decidable (hasHardFail hard metrics) := by
  unfold hasHardFail; infer_instance

instance (warn : List String) (metrics : List MetricResult) :
    Decidable (hasWarnable warn metrics) := by
  unfold hasWarnable; infer_instance

lemma deriveVerdictLoop_spec (hard warn : List String) :
    ∀ (metrics : List MetricResult) (v : String),
      deriveVerdictLoop hard warn metrics v =
        if hasHardFail hard metrics then "FAIL"
        else if hasWarnable warn metrics then "WARN" else v := by
  intro metrics
  induction metrics with
  | nil =>
    intro v
    simp [deriveVerdictLoop, hasHardFail, hasWarnable]
  | cons m rest ih =>
    intro v
    by_cases hf : m.status = "FAIL" ∧ (hard = [] ∨ m.name ∈ hard)
    · have hHard : hasHardFail hard (m :: rest) := ⟨m, List.mem_cons_self m rest, hf⟩
      simp [deriveVerdictLoop, hf, hHard]
    · by_cases hw : (m.status = "WARN" ∨ m.status = "SKIP") ∧ m.name ∈ warn
      · have hWarn : hasWarnable warn (m :: rest) := ⟨m, List.mem_cons_self m rest, hw⟩
        have hHardIff : hasHardFail hard (m :: rest) ↔ hasHardFail hard rest := by
          constructor
          · rintro ⟨x, hx, hxprop⟩
            rcases List.mem_cons.mp hx with hxm | hxr
            · exact absurd (hxm ▸ hxprop) hf
            · exact ⟨x, hxr, hxprop⟩
          · rintro ⟨x, hx, hxprop⟩
            exact ⟨x, List.mem_cons_of_mem m hx, hxprop⟩
        rw [deriveVerdictLoop]
        simp only [hf, if_false, hw, if_true]
        rw [ih "WARN"]
        by_cases hhr : hasHardFail hard rest
        · simp [hHardIff.mpr hhr, hhr]
        · have : ¬ hasHardFail hard (m :: rest) := fun h => hhr (hHardIff.mp h)
          simp [this, hhr, hWarn]
      · have hHardIff : hasHardFail hard (m :: rest) ↔ hasHardFail hard rest := by
          constructor
          · rintro ⟨x, hx, hxprop⟩
            rcases List.mem_cons.mp hx with hxm | hxr
            · exact absurd (hxm ▸ hxprop) hf
            · exact ⟨x, hxr, hxprop⟩
          · rintro ⟨x, hx, hxprop⟩
            exact ⟨x, List.mem_cons_of_mem m hx, hxprop⟩
        have hWarnIff : hasWarnable warn (m :: rest) ↔ hasWarnable warn rest := by
          constructor
          · rintro ⟨x, hx, hxprop⟩
            rcases List.mem_cons.mp hx with hxm | hxr
            · exact absurd (hxm ▸ hxprop) hw
            · exact ⟨x, hxr, hxprop⟩
          · rintro ⟨x, hx, hxprop⟩
            exact ⟨x, List.mem_cons_of_mem m hx, hxprop⟩
        rw [deriveVerdictLoop]
        simp only [hf, if_false, hw, if_false]
        rw [ih v]
        by_cases hhr : hasHardFail hard rest
        · simp [hHardIff.mpr hhr, hhr]
        · have h1 : ¬ hasHardFail hard (m :: rest) := fun h => hhr (hHardIff.mp h)
          by_cases hwr : hasWarnable warn rest
          · simp [h1, hhr, hwr, hWarnIff.mpr hwr]
          · have h2 : ¬ hasWarnable warn (m :: rest) := fun h => hwr (hWarnIff.mp h)
            simp [h1, hhr, hwr, h2]

/-- C1. Verdict derivation: for every list of MetricResults, the derived
verdict is FAIL iff some metric has status FAIL and (the hard set is empty or
the metric's name is in it); otherwise WARN iff some metric has status WARN
or SKIP and its name is in the warn set; otherwise PASS. In particular a
list whose metrics are all PASS yields PASS, and a FAIL on a metric outside
a non-empty hard set never changes the verdict. -/
theorem verdict_derivation_spec (hard warn : List String) (metrics : List MetricResult) :
    (deriveVerdict hard warn metrics =
      if hasHardFail hard metrics then "FAIL"
      else if hasWarnable warn metrics then "WARN" else "PASS")
    ∧ ((∀ m ∈ metrics, m.status = "PASS") → deriveVerdict hard warn metrics = "PASS")
    ∧ (∀ m : MetricResult, hard ≠ [] → m.status = "FAIL" → m.name ∉ hard →
        deriveVerdict hard warn (metrics ++ [m]) = deriveVerdict hard warn metrics) := by
  refine ⟨deriveVerdictLoop_spec hard warn metrics "PASS", ?_, ?_⟩
  · intro hall
    have h1 : ¬ hasHardFail hard metrics := by
      rintro ⟨m, hm, hstat, -⟩
      rw [hall m hm] at hstat
      exact absurd hstat (by decide)
    have h2 : ¬ hasWarnable warn metrics := by
      rintro ⟨m, hm, hstat, -⟩
      rcases hstat with h | h <;> rw [hall m hm] at h <;> exact absurd h (by decide)
    rw [deriveVerdict, deriveVerdictLoop_spec hard warn metrics "PASS"]
    simp [h1, h2]
  · intro m hne hstat hnot
    have hmq : ¬ (m.status = "FAIL" ∧ (hard = [] ∨ m.name ∈ hard)) := by
      rintro ⟨-, h | h⟩
      · exact hne h
      · exact hnot h
    have hmw : ¬ ((m.status = "WARN" ∨ m.status = "SKIP") ∧ m.name ∈ warn) := by
      rintro ⟨h | h, -⟩ <;> rw [hstat] at h <;> exact absurd h (by decide)
    have hHard : hasHardFail hard (metrics ++ [m]) ↔ hasHardFail hard metrics := by
      constructor
      · rintro ⟨x, hx, hxprop⟩
        rcases List.mem_append.mp hx with hxl | hxr
        · exact ⟨x, hxl, hxprop⟩
        · rcases List.mem_singleton.mp hxr with rfl
          exact absurd hxprop hmq
      · rintro ⟨x, hx, hxprop⟩
        exact ⟨x, List.mem_append.mpr (Or.inl hx), hxprop⟩
    have hWarn : hasWarnable warn (metrics ++ [m]) ↔ hasWarnable warn metrics := by
      constructor
      · rintro ⟨x, hx, hxprop⟩
        rcases List.mem_append.mp hx with hxl | hxr
        · exact ⟨x, hxl, hxprop⟩
        · rcases List.mem_singleton.mp hxr with rfl
          exact absurd hxprop hmw
      · rintro ⟨x, hx, hxprop⟩
        exact ⟨x, List.mem_append.mpr (Or.inl hx), hxprop⟩
    rw [deriveVerdict, deriveVerdict,
      deriveVerdictLoop_spec hard warn (metrics ++ [m]) "PASS",
      deriveVerdictLoop_spec hard warn metrics "PASS"]
    by_cases hh : hasHardFail hard metrics
    · simp [hh, hHard.mpr hh]
    · have hh2 : ¬ hasHardFail hard (metrics ++ [m]) := fun h => hh (hHard.mp h)
      by_cases hw : hasWarnable warn metrics
      · simp [hh, hh2, hw, hWarn.mpr hw]
      · have hw2 : ¬ hasWarnable warn (metrics ++ [m]) := fun h => hw (hWarn.mp h)
        simp [hh, hh2, hw, hw2]

/-- Witness for `verdict_derivation_spec` at concrete inputs. -/
theorem verdict_derivation_spec_witness :
    deriveVerdict ["LINES"] ["OCR"] [⟨"SSIM", none, "PASS", ""⟩] = "PASS"
    ∧ deriveVerdict ["LINES"] ["OCR"]
        ([⟨"SSIM", none, "PASS", ""⟩] ++ [⟨"NOISE", none, "FAIL", ""⟩])
      = deriveVerdict ["LINES"] ["OCR"] [⟨"SSIM", none, "PASS", ""⟩] := by
  have h := verdict_derivation_spec ["LINES"] ["OCR"] [⟨"SSIM", none, "PASS", ""⟩]
  refine ⟨h.2.1 ?_, h.2.2 ⟨"NOISE", none, "FAIL", ""⟩ (by decide) rfl (by decide)⟩
  intro m hm
  rcases List.mem_singleton.mp hm with rfl
  rfl

/-! ## Line comparison (src/app/verify/metrics/lines.py)

`compare_sequences` walks indices `0 .. max(len(ref), len(cand)) - 1`,
reading the empty string past the end of either list, counts matching
positions, and records the first `max_mismatches` mismatching positions
as `(index + 1, ref_line, cand_line)` triples. The loop is expressed here
as a filter over the index range, which yields the same counts and the
same recorded triples in the same order. -/

structure LineComparison where
  total_lines : ℕ
  matching_lines : ℕ
  mismatched : List (ℕ × String × String)
  deriving DecidableEq, Repr

def LineComparison.mismatch_count (c : LineComparison) : ℕ :=
  c.total_lines - c.matching_lines

def LineComparison.match_ratio (c : LineComparison) : ℚ :=
  if c.total_lines = 0 then 1 else (c.matching_lines : ℚ) / (c.total_lines : ℚ)

def LineComparison.mismatch_ratio (c : LineComparison) : ℚ :=
  if c.total_lines = 0 then 0 else (c.mismatch_count : ℚ) / (c.total_lines : ℚ)

def compareSequences (referenceLines candidateLines : List String)
    (maxMismatches : ℕ) : LineComparison :=
  let total := max referenceLines.length candidateLines.length
  let sameAt : ℕ → Bool := fun i =>
    decide (referenceLines.getD i "" = candidateLines.getD i "")
  { total_lines := total
    matching_lines := ((List.range total).filter sameAt).length
    mismatched :=
      (((List.range total).filter (fun i => ! sameAt i)).take maxMismatches).map
        (fun i => (i + 1, referenceLines.getD i "", candidateLines.getD i "")) }

/-! ## LINES metric status (src/app/verify/pipeline.py, lines 130-140) -/

def lineStatus (totalLines : ℕ) (mismatchRatio warnRatio failRatio : ℚ) : String :=
  if totalLines = 0 then "WARN"
  else if failRatio ≤ mismatchRatio then "FAIL"
  else if warnRatio ≤ mismatchRatio then "WARN"
  else "PASS"

/-- C5. LINES status thresholds: for every reference/candidate line
comparison, total 0 gives WARN; otherwise FAIL exactly when the mismatch
ratio is ≥ the fail threshold, WARN exactly when it is in
[warn threshold, fail threshold), PASS otherwise; in particular a ratio
exactly at the warn threshold is WARN (when warn < fail) and exactly at the
fail threshold is FAIL. -/
theorem lines_status_thresholds (referenceLines candidateLines : List String)
    (warnRatio failRatio : ℚ)
    (c : LineComparison) (hc : c = compareSequences referenceLines candidateLines 10)
    (st : String) (hst : st = lineStatus c.total_lines c.mismatch_ratio warnRatio failRatio) :
    (c.total_lines = 0 → st = "WARN")
    ∧ (c.total_lines ≠ 0 →
        ((st = "FAIL" ↔ failRatio ≤ c.mismatch_ratio)
         ∧ (st = "WARN" ↔ warnRatio ≤ c.mismatch_ratio ∧ c.mismatch_ratio < failRatio)
         ∧ (st = "PASS" ↔ c.mismatch_ratio < warnRatio ∧ c.mismatch_ratio < failRatio)))
    ∧ (c.total_lines ≠ 0 → c.mismatch_ratio = failRatio → st = "FAIL")
    ∧ (c.total_lines ≠ 0 → warnRatio < failRatio → c.mismatch_ratio = warnRatio →
        st = "WARN") := by
  subst hst
  refine ⟨?_, ?_, ?_, ?_⟩
  · intro h0
    simp only [lineStatus, if_pos h0]
  · intro h0
    simp only [lineStatus, if_neg h0]
    by_cases hf : failRatio ≤ c.mismatch_ratio
    · rw [if_pos hf]
      refine ⟨⟨fun _ => hf, fun _ => rfl⟩, ?_, ?_⟩
      · constructor
        · intro h
          exact absurd h (by decide)
        · rintro ⟨-, hlt⟩
          exact absurd hf (not_le.mpr hlt)
      · constructor
        · intro h
          exact absurd h (by decide)
        · rintro ⟨-, hlt⟩
          exact absurd hf (not_le.mpr hlt)
    · rw [if_neg hf]
      by_cases hw : warnRatio ≤ c.mismatch_ratio
      · rw [if_pos hw]
        refine ⟨?_, ⟨fun _ => ⟨hw, not_le.mp hf⟩, fun _ => rfl⟩, ?_⟩
        · constructor
          · intro h
            exact absurd h (by decide)
          · intro h
            exact absurd h hf
        · constructor
          · intro h
            exact absurd h (by decide)
          · rintro ⟨hlt, -⟩
            exact absurd hw (not_le.mpr hlt)
      · rw [if_neg hw]
        refine ⟨?_, ?_, ⟨fun _ => ⟨not_le.mp hw, not_le.mp hf⟩, fun _ => rfl⟩⟩
        · constructor
          · intro h
            exact absurd h (by decide)
          · intro h
            exact absurd h hf
        · constructor
          · intro h
            exact absurd h (by decide)
          · rintro ⟨hle, -⟩
            exact absurd hle hw
  · intro h0 heq
    simp only [lineStatus, if_neg h0, if_pos heq.symm.le]
  · intro h0 hlt heq
    have hf : ¬ failRatio ≤ c.mismatch_ratio := by
      rw [heq]
      exact not_le.mpr hlt
    simp only [lineStatus, if_neg h0, if_neg hf, if_pos heq.symm.le]

/-- Witness for `lines_status_thresholds`: ten lines with exactly one
mismatch give ratio 1/10, which sits exactly on the default warn threshold
and is classified WARN. -/
theorem lines_status_thresholds_witness :
    lineStatus
      (compareSequences ["a","b","c","d","e","f","g","h","i","j"]
        ["a","b","c","d","e","f","g","h","i","X"] 10).total_lines
      (compareSequences ["a","b","c","d","e","f","g","h","i","j"]
        ["a","b","c","d","e","f","g","h","i","X"] 10).mismatch_ratio
      (1/10) (3/10) = "WARN" := by
  have h := lines_status_thresholds ["a","b","c","d","e","f","g","h","i","j"]
    ["a","b","c","d","e","f","g","h","i","X"] (1/10) (3/10) _ rfl _ rfl
  have h1 : (compareSequences ["a","b","c","d","e","f","g","h","i","j"]
      ["a","b","c","d","e","f","g","h","i","X"] 10).total_lines = 10 := by decide
  have h2 : (compareSequences ["a","b","c","d","e","f","g","h","i","j"]
      ["a","b","c","d","e","f","g","h","i","X"] 10).mismatch_count = 1 := by decide
  refine h.2.2.2 (by rw [h1]; norm_num) (by norm_num) ?_
  rw [LineComparison.mismatch_ratio, h1, h2]
  norm_num

/-! ## Fax negotiation simulator (src/app/core/fax_simulation.py)

Timestamps and margins (Python floats) are modelled as rationals; every
float operation the simulator performs (adding 0.1/0.01/0.5/1.0/3.0,
dividing bitrates, comparing against -2.5) is exact at these magnitudes in
ℚ. The standard-library generator `random.Random(seed)` lives outside this
repository; it is modelled by `randUniform`, an explicit deterministic
function of the seed and the draw index whose values stay in [-2, 2) like
`uniform(-2.0, 2.0)`. No claim depends on the concrete Mersenne-Twister
values, only on the draws being a pure function of the seed. -/

inductive Transport where
  | simulator
  | t38
  deriving DecidableEq, Repr

structure FaxProfile where
  name : String
  standard : String
  max_bitrate : Int
  bitrate_steps : List Int
  ecm_enabled : Bool
  ecm_block_bytes : Int
  fallback_policy : String
  config_sha256 : String
  transport : Transport
  deriving DecidableEq, Repr

structure NegotiationEvent where
  timestamp : ℚ
  phase : String
  event : String
  detail : String
  deriving DecidableEq, Repr

structure SimulationResult where
  profile : FaxProfile
  events : List NegotiationEvent
  final_bitrate : Int
  fallback_steps : ℕ
  rng_seed : Int
  deriving DecidableEq, Repr

/-- Python's builtin `max` over an int list. `max([])` raises in Python; the
embedded simulator only applies it to non-empty lists (the walk draws its
first margin only when `bitrate_steps` is non-empty). -/
def listMax : List Int → Int
  | [] => 0
  | b :: rest => rest.foldl max b

/-- Python's builtin `min` over an int list (used only by the spec-side
margin formula below). -/
def listMin : List Int → Int
  | [] => 0
  | b :: rest => rest.foldl min b

/-- `FaxSimulation._dis_detail`. -/
def disDetail (p : FaxProfile) : String :=
  "STD:" ++ p.standard ++ ", ECM:" ++ (if p.ecm_enabled then "ON" else "OFF")
    ++ ", MAX:" ++ toString p.max_bitrate ++ "bps"

/-- TCF detail string. Python renders the margin with two decimal places;
the exact decimal rendering is irrelevant to every claim, so the rational
margin is rendered with `toString`. -/
def tcfDetail (margin : ℚ) (bitrate : Int) : String :=
  "margin=" ++ toString margin ++ "dB @ " ++ toString bitrate

/-- `FaxSimulation._next_bitrate`: the step after the first occurrence of
`bitrate` in the step list, or `bitrate` itself when absent or last. -/
def nextBitrate (p : FaxProfile) (bitrate : Int) : Int :=
  match p.bitrate_steps.indexOf? bitrate with
  | none => bitrate
  | some idx =>
    if idx + 1 < p.bitrate_steps.length then p.bitrate_steps.getD (idx + 1) bitrate
    else bitrate

/-- FALLBACK detail string. -/
def fallbackDetail (p : FaxProfile) (bitrate : Int) : String :=
  toString bitrate ++ "→" ++ toString (nextBitrate p bitrate) ++ " bps"

/-- The deterministic base margin of `FaxSimulation._simulate_margin`:
`3.0 - (bitrate / max(bitrate_steps)) * 3.0`. -/
def baseMargin (steps : List Int) (bitrate : Int) : ℚ :=
  3 - ((bitrate : ℚ) / ((listMax steps : Int) : ℚ)) * 3

/-- `FaxSimulation._simulate_margin` with the seeded uniform draw passed in
explicitly. -/
def simulateMargin (p : FaxProfile) (noiseValue : ℚ) (bitrate : Int) : ℚ :=
  baseMargin p.bitrate_steps bitrate + noiseValue

/-- Model of `random.Random(seed).uniform(-2.0, 2.0)` at the `k`-th draw: a
deterministic function of the seed and the draw index, with values in
[-2, 2). CPython's Mersenne Twister is standard-library code outside this
repository and its concrete values matter to no claim. -/
def randUniform (seed : Int) (k : ℕ) : ℚ :=
  -2 + ((((seed * 6364136223846793005
    + (k : Int) * 1442695040888963407) % 4096 : Int) : ℚ)) / 1024

/-- The bitrate walk of `FaxSimulation.run` (the `for`/`else` over
`bitrate_steps`): returns the events appended by the loop, the accepted
bitrate (`none` when every step was rejected), the final value of the
running timestamp, and the final fallback counter. `t` is the running
timestamp; `k` is the fallback counter, which also indexes the noise draws
because every iteration draws exactly once and the counter advances exactly
on the non-accepting iterations that precede any later draw. -/
def negotiateLoop (p : FaxProfile) (noise : ℕ → ℚ) :
    List Int → ℚ → ℕ → List NegotiationEvent × Option Int × ℚ × ℕ
  | [], t, k => ([], none, t, k)
  | bitrate :: rest, t, k =>
    let t' := t + 1/10
    let margin := simulateMargin p (noise k) bitrate
    let tcf : NegotiationEvent := ⟨t', p.standard, "TCF", tcfDetail margin bitrate⟩
    if -(5/2) ≤ margin then
      ([tcf, ⟨t' + 1/2, "PHASE_B", "CFR", "ok"⟩], some bitrate, t', k)
    else
      let res := negotiateLoop p noise rest t' (k + 1)
      (tcf :: ⟨t' + 1/100, p.standard, "FALLBACK", fallbackDetail p bitrate⟩ :: res.1,
        res.2)

/-- `FaxSimulation.run` with the noise draws abstracted into a stream.
Returns `none` exactly where the Python method raises: an empty
`bitrate_steps` (IndexError on `bitrate_steps[-1]` in the for-else branch)
or a zero maximum step (ZeroDivisionError inside `_simulate_margin`, hit as
soon as the first margin is drawn). -/
def runWith (p : FaxProfile) (noise : ℕ → ℚ) (seed : Int) : Option SimulationResult :=
  if p.bitrate_steps = [] ∨ listMax p.bitrate_steps = 0 then none
  else
    let dis : NegotiationEvent := ⟨0, "PHASE_B", "DIS", disDetail p⟩
    let lp := negotiateLoop p noise p.bitrate_steps (21/50) 0
    let tEnd := lp.2.2.1
    let closing : List NegotiationEvent :=
      match lp.2.1 with
      | some _ => []
      | none => [⟨tEnd + 1/2, "PHASE_B", "CFR", "forced accept"⟩]
    let finalBitrate : Int :=
      match lp.2.1 with
      | some b => b
      | none => (p.bitrate_steps.getLast?).getD 0
    some ⟨p,
      dis :: ((lp.1 ++ closing)
        ++ [⟨tEnd + 1, "PHASE_C", "START", "ecm=" ++ toString p.ecm_block_bytes ++ "B"⟩,
            ⟨tEnd + 3, "PHASE_D", "MCF", "retransmits=0"⟩]),
      finalBitrate, lp.2.2.2, seed⟩

/-- `FaxSimulation.__init__`: the simulator owns the profile and the seed
(the seeded generator is a pure function of the seed, see `randUniform`). -/
structure FaxSimulation where
  profile : FaxProfile
  seed : Int
  deriving DecidableEq, Repr

def FaxSimulation.init (profile : FaxProfile) (seed : Int) : FaxSimulation :=
  ⟨profile, seed⟩

def FaxSimulation.run (s : FaxSimulation) : Option SimulationResult :=
  runWith s.profile (randUniform s.seed) s.seed

/-- C2. Determinism: two simulators constructed from the same
(profile, seed) pair produce identical results — the same final bitrate, the
same fallback count, and event-by-event identical (timestamp, phase, event,
detail) tuples. The embedded `run` is a pure function of profile and seed:
Python's only state, `Random(seed)`, is itself a deterministic function of
the seed, reflected by `randUniform`. -/
theorem simulate_deterministic (p : FaxProfile) (seed : Int) :
    ((FaxSimulation.init p seed).run.map SimulationResult.final_bitrate
      = (FaxSimulation.init p seed).run.map SimulationResult.final_bitrate)
    ∧ ((FaxSimulation.init p seed).run.map SimulationResult.fallback_steps
      = (FaxSimulation.init p seed).run.map SimulationResult.fallback_steps)
    ∧ ((FaxSimulation.init p seed).run.map
        (fun r => r.events.map (fun e => (e.timestamp, e.phase, e.event, e.detail)))
      = (FaxSimulation.init p seed).run.map
        (fun r => r.events.map (fun e => (e.timestamp, e.phase, e.event, e.detail)))) :=
  ⟨rfl, rfl, rfl⟩

/-- Every modelled noise draw lies in [-2, 2] (in fact in [-2, 2)), like
`uniform(-2.0, 2.0)`. -/
lemma randUniform_mem (seed : Int) (k : ℕ) :
    -2 ≤ randUniform seed k ∧ randUniform seed k ≤ 2 := by
  set y : Int := (seed * 6364136223846793005 + (k : Int) * 1442695040888963407) % 4096
    with hy
  have h0 : 0 ≤ y := Int.emod_nonneg _ (by norm_num)
  have h1 : y < 4096 := Int.emod_lt_of_pos _ (by norm_num)
  have hq0 : (0 : ℚ) ≤ (y : ℚ) := by exact_mod_cast h0
  have hq1 : (y : ℚ) ≤ 4096 := by exact_mod_cast h1.le
  have hdiv0 : (0 : ℚ) ≤ (y : ℚ) / 1024 := by positivity
  have hdiv1 : (y : ℚ) / 1024 ≤ 4 := by
    rw [div_le_iff₀ (by norm_num : (0:ℚ) < 1024)]
    linarith
  constructor
  · rw [randUniform, ← hy]
    linarith
  · rw [randUniform, ← hy]
    linarith

/-- The base margin as claim C3 words it ("base_margin linearly decreases
from 3.0 dB at the highest bitrate step to 0 dB at the lowest bitrate
step"): the linear function of the bitrate taking the value 3 at the
highest step and 0 at the lowest. Written from the spec's words, for
comparison against `baseMargin`, the formula the code computes. -/
def specBaseMargin (steps : List Int) (bitrate : Int) : ℚ :=
  if listMax steps = listMin steps then 3
  else 3 * ((bitrate : ℚ) - ((listMin steps : Int) : ℚ))
    / (((listMax steps : Int) : ℚ) - ((listMin steps : Int) : ℚ))

/-- C3 counterexample: for the step list [30000, 10000] the code's base
margin is 0 dB at the highest step (the claim requires 3 dB there) and 2 dB
at the lowest step (the claim requires 0 dB there); consequently the margin
the simulator draws, minus the noise, is not the claimed base margin. -/
theorem margin_model_counterexample :
    baseMargin [30000, 10000] 30000 = 0
    ∧ specBaseMargin [30000, 10000] 30000 = 3
    ∧ baseMargin [30000, 10000] 10000 = 2
    ∧ specBaseMargin [30000, 10000] 10000 = 0
    ∧ baseMargin [30000, 10000] 30000 ≠ specBaseMargin [30000, 10000] 30000
    ∧ simulateMargin
          ⟨"p", "V34", 33600, [30000, 10000], true, 256, "graceful", "sha",
            Transport.simulator⟩
          (randUniform 1234 0) 30000 - randUniform 1234 0
        ≠ specBaseMargin [30000, 10000] 30000 := by
  have hmax : listMax [30000, 10000] = 30000 := by decide
  have hmin : listMin [30000, 10000] = 10000 := by decide
  have h1 : baseMargin [30000, 10000] 30000 = 0 := by
    rw [baseMargin, hmax]
    norm_num
  have h2 : specBaseMargin [30000, 10000] 30000 = 3 := by
    rw [specBaseMargin, if_neg (by rw [hmax, hmin]; norm_num), hmax, hmin]
    norm_num
  have h3 : baseMargin [30000, 10000] 10000 = 2 := by
    rw [baseMargin, hmax]
    norm_num
  have h4 : specBaseMargin [30000, 10000] 10000 = 0 := by
    rw [specBaseMargin, if_neg (by rw [hmax, hmin]; norm_num), hmax, hmin]
    norm_num
  refine ⟨h1, h2, h3, h4, by rw [h1, h2]; norm_num, ?_⟩
  rw [simulateMargin]
  show baseMargin [30000, 10000] 30000 + randUniform 1234 0 - randUniform 1234 0
      ≠ specBaseMargin [30000, 10000] 30000
  rw [h1, h2]
  norm_num

/-- C3 amended: for every profile, seed, draw index and bitrate, the margin
drawn for the bitrate equals base_margin(bitrate) + noise, where (provided
the maximum step is positive, otherwise Python raises)
base_margin(b) = 3·(1 − b/max_step): it is 0 dB at the highest bitrate step
and increases linearly as the bitrate decreases — not, as the spec words
it, 3 dB at the highest step and 0 dB at the lowest — and the seeded
generator's noise value lies in [-2, 2]. -/
theorem margin_model_amended (p : FaxProfile) (seed : Int) (b bLow : Int) (k : ℕ)
    (hpos : 0 < listMax p.bitrate_steps) :
    (simulateMargin p (randUniform seed k) b
        = baseMargin p.bitrate_steps b + randUniform seed k)
    ∧ baseMargin p.bitrate_steps b
        = 3 * (1 - (b : ℚ) / ((listMax p.bitrate_steps : Int) : ℚ))
    ∧ baseMargin p.bitrate_steps (listMax p.bitrate_steps) = 0
    ∧ (bLow ≤ b → baseMargin p.bitrate_steps b ≤ baseMargin p.bitrate_steps bLow)
    ∧ (-2 ≤ randUniform seed k ∧ randUniform seed k ≤ 2) := by
  have hM : (0 : ℚ) < ((listMax p.bitrate_steps : Int) : ℚ) := by exact_mod_cast hpos
  refine ⟨rfl, by rw [baseMargin]; ring, ?_, ?_, ?_⟩
  · rw [baseMargin, div_self hM.ne']
    ring
  · intro hle
    rw [baseMargin, baseMargin]
    have hdiv : ((bLow : Int) : ℚ) / ((listMax p.bitrate_steps : Int) : ℚ)
        ≤ ((b : Int) : ℚ) / ((listMax p.bitrate_steps : Int) : ℚ) := by
      apply div_le_div_of_nonneg_right ?_ hM.le
      exact_mod_cast hle
    linarith
  · exact randUniform_mem seed k

/-- Witness for `margin_model_amended` at a concrete profile and seed. -/
theorem margin_model_amended_witness :
    0 < listMax [33600, 24000]
    ∧ baseMargin [33600, 24000] (listMax [33600, 24000]) = 0 :=
  ⟨by decide,
    (margin_model_amended
      ⟨"w", "V34", 33600, [33600, 24000], true, 256, "graceful", "sha",
        Transport.simulator⟩ 7 24000 24000 0 (by decide)).2.2.1⟩

/-! ### Structural lemmas about the bitrate walk -/

lemma negotiateLoop_counter_ge (p : FaxProfile) (noise : ℕ → ℚ) :
    ∀ (steps : List Int) (t : ℚ) (k : ℕ),
      k ≤ (negotiateLoop p noise steps t k).2.2.2 := by
  intro steps
  induction steps with
  | nil =>
    intro t k
    simp [negotiateLoop]
  | cons b rest ih =>
    intro t k
    by_cases h : -(5/2) ≤ simulateMargin p (noise k) b
    · simp [negotiateLoop, if_pos h]
    · simp only [negotiateLoop, if_neg h]
      exact (Nat.le_succ k).trans (ih (t + 1/10) (k + 1))

lemma negotiateLoop_accept_mem (p : FaxProfile) (noise : ℕ → ℚ) :
    ∀ (steps : List Int) (t : ℚ) (k : ℕ) (b : Int),
      (negotiateLoop p noise steps t k).2.1 = some b → b ∈ steps := by
  intro steps
  induction steps with
  | nil =>
    intro t k b h
    simp [negotiateLoop] at h
  | cons s rest ih =>
    intro t k b h
    by_cases hm : -(5/2) ≤ simulateMargin p (noise k) s
    · simp only [negotiateLoop, if_pos hm, Option.some.injEq] at h
      exact h ▸ List.mem_cons_self s rest
    · simp only [negotiateLoop, if_neg hm] at h
      exact List.mem_cons_of_mem s (ih (t + 1/10) (k + 1) b h)

lemma negotiateLoop_none_counter (p : FaxProfile) (noise : ℕ → ℚ) :
    ∀ (steps : List Int) (t : ℚ) (k : ℕ),
      (negotiateLoop p noise steps t k).2.1 = none →
        (negotiateLoop p noise steps t k).2.2.2 = k + steps.length := by
  intro steps
  induction steps with
  | nil =>
    intro t k _
    simp [negotiateLoop]
  | cons s rest ih =>
    intro t k h
    by_cases hm : -(5/2) ≤ simulateMargin p (noise k) s
    · simp [negotiateLoop, if_pos hm] at h
    · simp only [negotiateLoop, if_neg hm] at h ⊢
      rw [ih (t + 1/10) (k + 1) h]
      simp only [List.length_cons]
      omega

lemma negotiateLoop_accept_first (p : FaxProfile) (noise : ℕ → ℚ) :
    ∀ (steps : List Int) (t : ℚ) (k : ℕ) (b : Int),
      (negotiateLoop p noise steps t k).2.1 = some b →
        (negotiateLoop p noise steps t k).2.2.2 = k →
          steps.head? = some b := by
  intro steps
  induction steps with
  | nil =>
    intro t k b h
    simp [negotiateLoop] at h
  | cons s rest ih =>
    intro t k b h hk
    by_cases hm : -(5/2) ≤ simulateMargin p (noise k) s
    · simp only [negotiateLoop, if_pos hm, Option.some.injEq] at h
      rw [List.head?_cons, h]
    · simp only [negotiateLoop, if_neg hm] at hk
      have := negotiateLoop_counter_ge p noise rest (t + 1/10) (k + 1)
      omega

/-- On a profile whose step list is the singleton [b] with b ≠ 0, the first
step is always accepted (the base margin there is 0 and every modelled noise
draw is ≥ -2 > -2.5): zero fallbacks and final bitrate b. -/
lemma run_singleton (p : FaxProfile) (seed : Int) (b : Int)
    (hsteps : p.bitrate_steps = [b]) (hb : b ≠ 0) :
    (FaxSimulation.init p seed).run.map SimulationResult.fallback_steps = some 0
    ∧ (FaxSimulation.init p seed).run.map SimulationResult.final_bitrate = some b := by
  have hmaxb : listMax [b] = b := rfl
  have hguard : ¬ (p.bitrate_steps = [] ∨ listMax p.bitrate_steps = 0) := by
    rw [hsteps, hmaxb]
    simp [hb]
  have hbq : ((b : Int) : ℚ) ≠ 0 := Int.cast_ne_zero.mpr hb
  have hmargin : -(5/2) ≤ simulateMargin p (randUniform seed 0) b := by
    rw [simulateMargin, baseMargin, hsteps, hmaxb, div_self hbq]
    have hr := (randUniform_mem seed 0).1
    linarith
  constructor <;>
  · rw [FaxSimulation.run]
    show Option.map _ (runWith p (randUniform seed) seed) = _
    rw [runWith, if_neg hguard]
    simp only [hsteps, negotiateLoop, if_pos hmargin, Option.map_some]
    rfl

/-- C4 counterexample: a profile with max_bitrate 33600 but bitrate_steps
[1000] accepts the first (and only) step with zero fallbacks — the modelled
noise is always ≥ -2 > -2.5 and the base margin at the only step is 0 — so
fallback_steps = 0 while final_bitrate = 1000 ≠ 33600 = max_bitrate. -/
theorem bitrate_invariant_counterexample :
    ((FaxSimulation.init
        ⟨"c", "V34", 33600, [1000], true, 256, "graceful", "sha",
          Transport.simulator⟩ 0).run.map SimulationResult.fallback_steps = some 0)
    ∧ ((FaxSimulation.init
        ⟨"c", "V34", 33600, [1000], true, 256, "graceful", "sha",
          Transport.simulator⟩ 0).run.map SimulationResult.final_bitrate = some 1000)
    ∧ (⟨"c", "V34", 33600, [1000], true, 256, "graceful", "sha",
          Transport.simulator⟩ : FaxProfile).max_bitrate = 33600
    ∧ (1000 : Int) ≠ 33600 := by
  have h := run_singleton
    ⟨"c", "V34", 33600, [1000], true, 256, "graceful", "sha", Transport.simulator⟩
    0 1000 rfl (by decide)
  exact ⟨h.1, h.2, rfl, by decide⟩

/-- C4 amended: for every profile with a non-empty step list whose FIRST
step equals max_bitrate (the property the claim needs but did not assume;
the code otherwise accepts the first step without ever consulting
max_bitrate) and every seed, any returned SimulationResult satisfies: zero
fallback steps implies final_bitrate = max_bitrate, and in every case
final_bitrate is an element of bitrate_steps. -/
theorem bitrate_invariant_amended (p : FaxProfile) (seed : Int) (r : SimulationResult)
    (hhead : p.bitrate_steps.head? = some p.max_bitrate)
    (hrun : (FaxSimulation.init p seed).run = some r) :
    (r.fallback_steps = 0 → r.final_bitrate = p.max_bitrate)
    ∧ r.final_bitrate ∈ p.bitrate_steps := by
  have hne : p.bitrate_steps ≠ [] := by
    intro h
    rw [h] at hhead
    simp at hhead
  rw [FaxSimulation.run] at hrun
  change runWith p (randUniform seed) seed = some r at hrun
  rw [runWith] at hrun
  by_cases hg : p.bitrate_steps = [] ∨ listMax p.bitrate_steps = 0
  · rw [if_pos hg] at hrun
    exact absurd hrun (by simp)
  · rw [if_neg hg] at hrun
    simp only [Option.some.injEq] at hrun
    subst hrun
    rcases hlp : (negotiateLoop p (randUniform seed) p.bitrate_steps (21/50) 0).2.1
      with _ | b
    · -- every step rejected: forced accept of the last step
      have hcnt := negotiateLoop_none_counter p (randUniform seed)
        p.bitrate_steps (21/50) 0 hlp
      constructor
      · intro hzero
        simp only [hlp] at hzero
        rw [hzero] at hcnt
        have : p.bitrate_steps.length = 0 := by omega
        exact absurd (List.length_eq_zero.mp this) hne
      · simp only [hlp]
        rw [List.getLast?_eq_getLast _ hne]
        simp only [Option.getD_some]
        exact List.getLast_mem hne
    · -- accepted at some step
      have hmem := negotiateLoop_accept_mem p (randUniform seed)
        p.bitrate_steps (21/50) 0 b hlp
      constructor
      · intro hzero
        simp only [hlp] at hzero ⊢
        have hfirst := negotiateLoop_accept_first p (randUniform seed)
          p.bitrate_steps (21/50) 0 b hlp hzero
        rw [hfirst] at hhead
        simp only [Option.some.injEq] at hhead
        exact hhead
      · simp only [hlp]
        exact hmem

/-- Witness for `bitrate_invariant_amended`: a singleton profile whose only
step equals its max_bitrate accepts immediately, and the theorem gives
final_bitrate = max_bitrate. -/
theorem bitrate_invariant_amended_witness :
    (FaxSimulation.init
        ⟨"g", "V34", 1000, [1000], true, 256, "graceful", "sha",
          Transport.simulator⟩ 0).run.map SimulationResult.final_bitrate
      = some (⟨"g", "V34", 1000, [1000], true, 256, "graceful", "sha",
          Transport.simulator⟩ : FaxProfile).max_bitrate := by
  have h := run_singleton
    ⟨"g", "V34", 1000, [1000], true, 256, "graceful", "sha", Transport.simulator⟩
    0 1000 rfl (by decide)
  rcases hr : (FaxSimulation.init
      ⟨"g", "V34", 1000, [1000], true, 256, "graceful", "sha",
        Transport.simulator⟩ 0).run with _ | r
  · rw [hr] at h
    exact absurd h.1 (by simp)
  · rw [hr] at h
    simp only [Option.map_some', Option.some.injEq] at h ⊢
    have hth := bitrate_invariant_amended
      ⟨"g", "V34", 1000, [1000], true, 256, "graceful", "sha", Transport.simulator⟩
      0 r rfl hr
    exact hth.1 h.1

/-! ### Trace shape of the simulator -/

@[simp] lemma NegotiationEvent.timestamp_mk (q : ℚ) (ph ev de : String) :
    (⟨q, ph, ev, de⟩ : NegotiationEvent).timestamp = q := rfl

lemma chain_le_append {l₁ l₂ : List ℚ} (h1 : List.Chain' (· ≤ ·) l₁)
    (h2 : List.Chain' (· ≤ ·) l₂)
    (h : ∀ a ∈ l₁, ∀ b ∈ l₂, a ≤ b) : List.Chain' (· ≤ ·) (l₁ ++ l₂) := by
  rw [List.chain'_append]
  exact ⟨h1, h2, fun x hx y hy =>
    h x (List.mem_of_mem_getLast? hx) y (List.mem_of_mem_head? hy)⟩

lemma chain_le_cons {a : ℚ} {l : List ℚ} (h : ∀ y ∈ l, a ≤ y)
    (hc : List.Chain' (· ≤ ·) l) : List.Chain' (· ≤ ·) (a :: l) :=
  List.chain'_cons'.mpr ⟨fun y hy => h y (List.mem_of_mem_head? hy), hc⟩

lemma close_shape (a x y : NegotiationEvent) (l₁ l₂ : List NegotiationEvent) :
    ((a :: ((l₁ ++ l₂) ++ [x, y])).getLast? = some y)
    ∧ ((a :: ((l₁ ++ l₂) ++ [x, y])).dropLast.getLast? = some x) := by
  have h : a :: ((l₁ ++ l₂) ++ [x, y]) = ((a :: ((l₁ ++ l₂) ++ [x])) ++ [y]) := by
    simp
  have h2 : a :: ((l₁ ++ l₂) ++ [x]) = (a :: (l₁ ++ l₂)) ++ [x] := by
    simp
  rw [h, List.getLast?_concat, List.dropLast_concat, h2, List.getLast?_concat]
  exact ⟨rfl, rfl⟩

/-- Within the bitrate walk: the appended events have non-decreasing
timestamps, each lies between the first tick `t + 0.1` and half a second
after the final running timestamp, and the running timestamp never
decreases. -/
lemma negotiateLoop_events (p : FaxProfile) (noise : ℕ → ℚ) :
    ∀ (steps : List Int) (t : ℚ) (k : ℕ),
      List.Chain' (· ≤ ·)
        ((negotiateLoop p noise steps t k).1.map NegotiationEvent.timestamp)
      ∧ (∀ e ∈ (negotiateLoop p noise steps t k).1,
          t + 1/10 ≤ e.timestamp
          ∧ e.timestamp ≤ (negotiateLoop p noise steps t k).2.2.1 + 1/2)
      ∧ t ≤ (negotiateLoop p noise steps t k).2.2.1 := by
  intro steps
  induction steps with
  | nil =>
    intro t k
    simp [negotiateLoop]
  | cons s rest ih =>
    intro t k
    by_cases hm : -(5/2) ≤ simulateMargin p (noise k) s
    · simp only [negotiateLoop, if_pos hm]
      refine ⟨?_, ?_, ?_⟩
      · simp only [List.map_cons, List.map_nil, NegotiationEvent.timestamp_mk]
        exact List.chain'_cons.mpr ⟨by linarith, List.chain'_singleton _⟩
      · intro e he
        simp only [List.mem_cons, List.not_mem_nil, or_false] at he
        rcases he with rfl | rfl <;>
          simp only [NegotiationEvent.timestamp_mk] <;>
          exact ⟨by linarith, by linarith⟩
      · linarith
    · simp only [negotiateLoop, if_neg hm]
      obtain ⟨ch, bd, hte⟩ := ih (t + 1/10) (k + 1)
      have h1 : t + 1/10 ≤ (negotiateLoop p noise rest (t + 1/10) (k + 1)).2.2.1 := hte
      refine ⟨?_, ?_, ?_⟩
      · simp only [List.map_cons, NegotiationEvent.timestamp_mk]
        refine List.chain'_cons.mpr ⟨by linarith, ?_⟩
        refine chain_le_cons ?_ ch
        intro y hy
        obtain ⟨e, he, rfl⟩ := List.mem_map.mp hy
        have := (bd e he).1
        linarith
      · intro e he
        simp only [List.mem_cons] at he
        rcases he with rfl | rfl | he
        · simp only [NegotiationEvent.timestamp_mk]
          exact ⟨by linarith, by linarith⟩
        · simp only [NegotiationEvent.timestamp_mk]
          exact ⟨by linarith, by linarith⟩
        · obtain ⟨hl, hu⟩ := bd e he
          exact ⟨by linarith, hu⟩
      · linarith

/-- C9. Trace shape: for every profile with a non-empty step list and every
seed, any returned SimulationResult has an event list that begins with a
PHASE_B DIS event at timestamp 0.0, ends with a PHASE_C START event
followed by a PHASE_D MCF event, has monotonically non-decreasing
timestamps throughout, and a non-negative fallback count. -/
theorem trace_shape (p : FaxProfile) (seed : Int) (r : SimulationResult)
    (hne : p.bitrate_steps ≠ [])
    (hrun : (FaxSimulation.init p seed).run = some r) :
    r.events.head? = some ⟨0, "PHASE_B", "DIS", disDetail p⟩
    ∧ r.events.getLast?.map (fun e => (e.phase, e.event)) = some ("PHASE_D", "MCF")
    ∧ r.events.dropLast.getLast?.map (fun e => (e.phase, e.event))
        = some ("PHASE_C", "START")
    ∧ List.Chain' (· ≤ ·) (r.events.map NegotiationEvent.timestamp)
    ∧ 0 ≤ r.fallback_steps := by
  clear hne
  rw [FaxSimulation.run] at hrun
  change runWith p (randUniform seed) seed = some r at hrun
  rw [runWith] at hrun
  by_cases hg : p.bitrate_steps = [] ∨ listMax p.bitrate_steps = 0
  · rw [if_pos hg] at hrun
    exact absurd hrun (by simp)
  · rw [if_neg hg] at hrun
    simp only [Option.some.injEq] at hrun
    subst hrun
    obtain ⟨ch, bd, hte⟩ :=
      negotiateLoop_events p (randUniform seed) p.bitrate_steps (21/50) 0
    rcases hlp : (negotiateLoop p (randUniform seed) p.bitrate_steps (21/50) 0).2.1
      with _ | b
    · -- every step rejected: a CFR "forced accept" closes the walk
      simp only [hlp]
      refine ⟨rfl, ?_, ?_, ?_, Nat.zero_le _⟩
      · rw [(close_shape _ _ _ _ _).1]
        rfl
      · rw [(close_shape _ _ _ _ _).2]
        rfl
      · simp only [List.map_cons, List.map_append, List.map_nil,
          NegotiationEvent.timestamp_mk]
        refine chain_le_cons ?_ ?_
        · intro y hy
          rcases List.mem_append.mp hy with h | h
          · rcases List.mem_append.mp h with h2 | h2
            · obtain ⟨e, he, rfl⟩ := List.mem_map.mp h2
              have := (bd e he).1
              linarith
            · rw [List.mem_singleton] at h2
              subst h2
              linarith
          · rcases List.mem_cons.mp h with rfl | h2
            · linarith
            · rw [List.mem_singleton] at h2
              subst h2
              linarith
        · refine chain_le_append (chain_le_append ch (List.chain'_singleton _) ?_)
            (List.chain'_cons.mpr ⟨by linarith, List.chain'_singleton _⟩) ?_
          · intro a ha b hb
            obtain ⟨e, he, rfl⟩ := List.mem_map.mp ha
            rw [List.mem_singleton] at hb
            subst hb
            have := (bd e he).2
            linarith
          · intro a ha b hb
            have hbb : b = (negotiateLoop p (randUniform seed)
                  p.bitrate_steps (21/50) 0).2.2.1 + 1
                ∨ b = (negotiateLoop p (randUniform seed)
                  p.bitrate_steps (21/50) 0).2.2.1 + 3 := by
              rcases List.mem_cons.mp hb with rfl | h2
              · exact Or.inl rfl
              · rw [List.mem_singleton] at h2
                exact Or.inr h2
            have haa : a ≤ (negotiateLoop p (randUniform seed)
                p.bitrate_steps (21/50) 0).2.2.1 + 1/2 := by
              rcases List.mem_append.mp ha with h2 | h2
              · obtain ⟨e, he, rfl⟩ := List.mem_map.mp h2
                exact (bd e he).2
              · rw [List.mem_singleton] at h2
                subst h2
                exact le_refl _
            rcases hbb with rfl | rfl <;> linarith
    · -- accepted: no closing CFR event
      simp only [hlp]
      refine ⟨rfl, ?_, ?_, ?_, Nat.zero_le _⟩
      · rw [(close_shape _ _ _ _ _).1]
        rfl
      · rw [(close_shape _ _ _ _ _).2]
        rfl
      · simp only [List.map_cons, List.map_append, List.map_nil,
          NegotiationEvent.timestamp_mk]
        refine chain_le_cons ?_ ?_
        · intro y hy
          rcases List.mem_append.mp hy with h | h
          · rcases List.mem_append.mp h with h2 | h2
            · obtain ⟨e, he, rfl⟩ := List.mem_map.mp h2
              have := (bd e he).1
              linarith
            · exact absurd h2 (List.not_mem_nil y)
          · rcases List.mem_cons.mp h with rfl | h2
            · linarith
            · rw [List.mem_singleton] at h2
              subst h2
              linarith
        · refine chain_le_append (chain_le_append ch List.chain'_nil ?_)
            (List.chain'_cons.mpr ⟨by linarith, List.chain'_singleton _⟩) ?_
          · intro a ha b hb
            exact absurd hb (List.not_mem_nil b)
          · intro a ha b hb
            have haa : a ≤ (negotiateLoop p (randUniform seed)
                p.bitrate_steps (21/50) 0).2.2.1 + 1/2 := by
              rcases List.mem_append.mp ha with h2 | h2
              · obtain ⟨e, he, rfl⟩ := List.mem_map.mp h2
                exact (bd e he).2
              · exact absurd h2 (List.not_mem_nil a)
            rcases List.mem_cons.mp hb with rfl | h2
            · linarith
            · rw [List.mem_singleton] at h2
              subst h2
              linarith

/-- Witness for `trace_shape` at a concrete singleton profile and seed. -/
theorem trace_shape_witness :
    (FaxSimulation.init
        ⟨"t", "V34", 1000, [1000], true, 256, "graceful", "sha",
          Transport.simulator⟩ 0).run.map
        (fun r => (r.events.head?,
          r.events.getLast?.map (fun e => (e.phase, e.event)),
          r.events.dropLast.getLast?.map (fun e => (e.phase, e.event))))
      = some (some ⟨0, "PHASE_B", "DIS",
            disDetail ⟨"t", "V34", 1000, [1000], true, 256, "graceful", "sha",
              Transport.simulator⟩⟩,
          some ("PHASE_D", "MCF"), some ("PHASE_C", "START")) := by
  have hs := run_singleton
    ⟨"t", "V34", 1000, [1000], true, 256, "graceful", "sha", Transport.simulator⟩
    0 1000 rfl (by decide)
  rcases hr : (FaxSimulation.init
      ⟨"t", "V34", 1000, [1000], true, 256, "graceful", "sha",
        Transport.simulator⟩ 0).run with _ | r
  · rw [hr] at hs
    exact absurd hs.1 (by simp)
  · have h := trace_shape
      ⟨"t", "V34", 1000, [1000], true, 256, "graceful", "sha", Transport.simulator⟩
      0 r (by decide) hr
    simp only [Option.map_some']
    rw [h.1, h.2.1, h.2.2.1]

/-! ## OCR proxy metric (src/app/verify/metrics/ocr.py and
src/app/verify/pipeline.py, lines 156-167)

`ocr_accuracy` decodes the candidate's raw bytes as UTF-8 (a decode error
returns (0.0, 0, size)); on success it returns the ratio of alphanumeric
characters to total characters, mapping the empty text to accuracy 1.0.
The UTF-8 decode is modelled by its outcome (`none` standing for a
UnicodeDecodeError), and Python's Unicode `str.isalnum` by
`Char.isAlphanum`; the claims about this metric examine no individual
characters, only the empty text and the status thresholds. -/

def ocrAccuracy (decoded : Option String) (size : ℕ) : ℚ × ℕ × ℕ :=
  match decoded with
  | none => (0, 0, size)
  | some text =>
    if text.length = 0 then
      (1, (text.toList.filter Char.isAlphanum).length, text.length)
    else
      (((text.toList.filter Char.isAlphanum).length : ℚ) / (text.length : ℚ),
        (text.toList.filter Char.isAlphanum).length, text.length)

/-- The OCR status ladder of `VerificationPipeline._run_metrics`:
SKIP when there is no text and OCR is not required; PASS when the accuracy
meets the configured minimum or is 0 while OCR is not required; otherwise
FAIL when required, WARN when not. -/
def ocrStatus (requireOcr : Bool) (minAccuracy : ℚ) (value : ℚ) (total : ℕ) : String :=
  if total = 0 ∧ ¬ requireOcr then "SKIP"
  else if minAccuracy ≤ value ∨ (value = 0 ∧ ¬ requireOcr) then "PASS"
  else if requireOcr then "FAIL" else "WARN"

/-- C10 counterexample: an entirely empty candidate document CAN yield OCR
status FAIL under a required-OCR policy — it suffices that the policy sets
minAccuracy above 1 (e.g. 1.5): the accuracy of the empty text is 1.0,
which then fails the `value >= min_accuracy` test, and with ocr.required
true the else-branch returns FAIL. -/
theorem ocr_empty_counterexample :
    (ocrAccuracy (some "") 0).1 = 1
    ∧ (ocrAccuracy (some "") 0).2.2 = 0
    ∧ ocrStatus true (3/2) (ocrAccuracy (some "") 0).1 (ocrAccuracy (some "") 0).2.2
        = "FAIL" := by
  have hacc : ocrAccuracy (some "") 0 = (1, 0, 0) := rfl
  refine ⟨by rw [hacc], by rw [hacc], ?_⟩
  rw [hacc]
  show ocrStatus true (3/2) 1 0 = "FAIL"
  rw [ocrStatus, if_neg (by simp), if_neg (by norm_num), if_pos rfl]

/-- C10 amended: for every candidate whose raw content decodes as UTF-8 to
the empty string, ocr_accuracy returns accuracy 1.0 with zero alphanumeric
and zero total characters; the pipeline's OCR status is SKIP when
ocr.required is false, and PASS when ocr.required is true provided the
configured minAccuracy is at most 1 (with minAccuracy > 1 an empty document
yields FAIL under a required-OCR policy, see the counterexample). -/
theorem ocr_empty_amended (minAccuracy : ℚ) (size : ℕ) :
    (ocrAccuracy (some "") size).1 = 1
    ∧ (ocrAccuracy (some "") size).2.1 = 0
    ∧ (ocrAccuracy (some "") size).2.2 = 0
    ∧ ocrStatus false minAccuracy (ocrAccuracy (some "") size).1
        (ocrAccuracy (some "") size).2.2 = "SKIP"
    ∧ (minAccuracy ≤ 1 →
        ocrStatus true minAccuracy (ocrAccuracy (some "") size).1
          (ocrAccuracy (some "") size).2.2 = "PASS") := by
  have hacc : ocrAccuracy (some "") size = (1, 0, 0) := rfl
  rw [hacc]
  refine ⟨rfl, rfl, rfl, ?_, ?_⟩
  · rw [ocrStatus, if_pos (by simp)]
  · intro hmin
    rw [ocrStatus, if_neg (by simp), if_pos (Or.inl hmin)]

/-- Witness for `ocr_empty_amended` at the default minimum accuracy 0.95. -/
theorem ocr_empty_amended_witness :
    (19/20 : ℚ) ≤ 1
    ∧ ocrStatus true (19/20) (ocrAccuracy (some "") 0).1
        (ocrAccuracy (some "") 0).2.2 = "PASS" :=
  ⟨by norm_num, (ocr_empty_amended (19/20) 0).2.2.2.2 (by norm_num)⟩

/-! ## Page alignment (src/app/verify/align.py, data model from
src/app/verify/loaders.py)

Pixel grids (NumPy arrays in the source) are modelled as rectangular lists
of rows of rationals; NumPy is modelled as available (its absence makes
`_image_similarity` return None, exactly the behaviour of pixel-free
pages). `align_documents` is embedded twice:

* `align_documents` itself mirrors the Python control flow faithfully,
  including its partial operations: every `similarity[i][j]` subscript and
  every `reference.pages[idx]` subscript is a checked lookup, and `max`
  over the unmatched set propagates failure, so the embedding returns
  `none` exactly where the Python code would raise. The execution context
  is non-interactive (`_prompt_manual_choice` returns None), so a
  low-confidence match keeps the automatic choice and records a warning.
* `alignCore` is the same algorithm with total lookups; the lemma
  `align_documents_eq_core` proves the faithful embedding never fails and
  agrees with it.

Python iterates `unmatched_refs` (a set of small ints) in ascending order;
the model keeps the unmatched references as an ascending list, and `max`
returns the first maximiser in that order, as CPython's `max` does.
Warning strings are modelled by an inductive type carrying the data each
format string interpolates; no claim reads the rendered text. -/

structure DocumentPage where
  index : ℕ
  text_lines : List String
  image : Option (List (List ℚ))
  dpi : Option ℕ
  warnings : List String
  deriving DecidableEq, Repr

instance : Inhabited DocumentPage := ⟨⟨0, [], none, none, []⟩⟩

structure DocumentData where
  path : String
  content : List ℕ
  sha256 : String
  pages : List DocumentPage
  warnings : List String
  deriving DecidableEq, Repr

def DocumentData.page_count (d : DocumentData) : ℕ := d.pages.length

def DocumentData.lines (d : DocumentData) : List String :=
  (d.pages.map DocumentPage.text_lines).flatten

structure PagePair where
  index : ℕ
  reference : DocumentPage
  candidate : DocumentPage
  confidence : ℚ
  deriving DecidableEq, Repr

inductive AlignWarning where
  | extraCandidate (candIndex : ℕ)
  | lowConfidence (candIndex : ℕ) (score : ℚ)
  | unmatchedRefs (count : ℕ) (indices : List ℕ)
  | pageCountMismatchIgnored (refCount candCount : ℕ)
  | pageCountMismatchLimited (refCount candCount pairCount : ℕ)
  deriving DecidableEq, Repr

/-- `_image_similarity`: `1 - mean_absolute_difference/255` over the crop
to the common height and width, clamped to [0, 1]; `none` when either image
is absent or the crop is empty (the `math.isfinite` guard never fires over
ℚ). -/
def imageSimilarity (refImage candImage : Option (List (List ℚ))) : Option ℚ :=
  match refImage, candImage with
  | some r, some c =>
    let height := min r.length c.length
    let width := min (r.head?.getD []).length (c.head?.getD []).length
    if height = 0 ∨ width = 0 then none
    else
      let diffSum : ℚ :=
        ((List.range height).map (fun i =>
          ((List.range width).map (fun j =>
            |((r.getD i []).getD j 0) - ((c.getD i []).getD j 0)|)).sum)).sum
      let mae := diffSum / ((height : ℚ) * (width : ℚ))
      some (max 0 (min 1 (1 - mae / 255)))
  | _, _ => none

/-- The text contribution to `_page_similarity`'s score list: the line
match ratio when either page has text lines. -/
def textScoresOf (reference candidate : DocumentPage) : List ℚ :=
  if reference.text_lines ≠ [] ∨ candidate.text_lines ≠ [] then
    [(compareSequences reference.text_lines candidate.text_lines 10).match_ratio]
  else []

/-- The image contribution to `_page_similarity`'s score list. -/
def imageScoresOf (reference candidate : DocumentPage) : List ℚ :=
  match imageSimilarity reference.image candidate.image with
  | some s => [s]
  | none => []

/-- The `scores` list `_page_similarity` builds: text score, then image
score, defaulting to [0.5] when neither signal exists. -/
def contentScores (reference candidate : DocumentPage) : List ℚ :=
  if textScoresOf reference candidate ++ imageScoresOf reference candidate = [] then
    [(1 : ℚ)/2]
  else textScoresOf reference candidate ++ imageScoresOf reference candidate

/-- The order score of `_page_similarity`:
`1 - min(1, |i - j| / max(total_ref, total_cand, 1))`. -/
def orderScoreOf (refIndex candIndex totalRef totalCand : ℕ) : ℚ :=
  1 - min 1 (|(refIndex : ℚ) - (candIndex : ℚ)|
    / ((max totalRef (max totalCand 1) : ℕ) : ℚ))

/-- `_page_similarity`: `max(0, min(1, content*0.8 + order*0.2))` with the
content score the mean of `contentScores`. -/
def pageSimilarity (reference candidate : DocumentPage)
    (refIndex candIndex totalRef totalCand : ℕ) : ℚ :=
  max 0 (min 1
    ((contentScores reference candidate).sum
        / ((contentScores reference candidate).length : ℚ) * (4/5)
      + orderScoreOf refIndex candIndex totalRef totalCand * (1/5)))

/-- `_similarity_matrix`. -/
def similarityMatrix (refPages candPages : List DocumentPage) : List (List ℚ) :=
  (List.range refPages.length).map (fun i =>
    (List.range candPages.length).map (fun j =>
      pageSimilarity (refPages.getD i default) (candPages.getD j default) i j
        refPages.length candPages.length))

/-- The similarity function the matrix tabulates. -/
def simOf (refPages candPages : List DocumentPage) (i j : ℕ) : ℚ :=
  pageSimilarity ( refPages.getD i default) (candPages.getD j default) i j
    refPages.length candPages.length

/-- Checked `similarity[i][j]` subscript. -/
def lookupSim (matrix : List (List ℚ)) (i j : ℕ) : Option ℚ :=
  match matrix.get? i with
  | none => none
  | some row => row.get? j

/-- Python `max(iterable, key=f)` keeps the first maximiser in iteration
order: starting from `best`, later elements replace it only when strictly
greater. -/
def argmaxFrom (f : ℕ → ℚ) : ℕ → List ℕ → ℕ
  | best, [] => best
  | best, i :: rest => argmaxFrom f (if f best < f i then i else best) rest

/-- The same `max`, with every key evaluation going through the checked
matrix subscript, as in `max(unmatched_refs, key=lambda idx:
similarity[idx][cand_index])`. -/
def argmaxCheckedFrom (matrix : List (List ℚ)) (candIndex : ℕ) :
    ℕ → List ℕ → Option ℕ
  | best, [] => some best
  | best, i :: rest =>
    match lookupSim matrix best candIndex, lookupSim matrix i candIndex with
    | some sb, some si =>
      argmaxCheckedFrom matrix candIndex (if sb < si then i else best) rest
    | _, _ => none

/-- `_pair_by_index`: pair by raw index up to the shorter length with
confidence 1.0 (and no warnings of its own). -/
def pairByIndex (refPages candPages : List DocumentPage) :
    List PagePair × List AlignWarning :=
  (((List.range (min refPages.length candPages.length)).map (fun i =>
    ⟨i, refPages.getD i default, candPages.getD i default, 1⟩)), [])

/-- The greedy assignment loop of `align_documents`, total version:
`sim` plays the role of the similarity matrix, `unmatched` is the
ascending list of unmatched reference indices, `idx0` the number of pairs
created so far (Python stores `index=len(pairs)`; the index is overwritten
after the final sort). A non-interactive context keeps the automatic
choice on low confidence and records a warning. -/
def greedyAssign (sim : ℕ → ℕ → ℚ) (thr : ℚ) (refPages : List DocumentPage) :
    List (ℕ × DocumentPage) → List ℕ → ℕ →
      List PagePair × List AlignWarning × List ℕ
  | [], unmatched, _ => ([], [], unmatched)
  | (candIndex, candPage) :: rest, unmatched, idx0 =>
    match unmatched with
    | [] => ([], [AlignWarning.extraCandidate candIndex], [])
    | u0 :: us =>
      let best := argmaxFrom (fun i => sim i candIndex) u0 us
      let score := sim best candIndex
      let warns :=
        if score < thr then [AlignWarning.lowConfidence candIndex score] else []
      let out := greedyAssign sim thr refPages rest ((u0 :: us).erase best) (idx0 + 1)
      (⟨idx0, refPages.getD best default, candPage, score⟩ :: out.1,
        warns ++ out.2.1, out.2.2)

/-- The greedy assignment loop with the checked subscripts of the source:
`none` wherever the Python loop would raise. -/
def greedyChecked (matrix : List (List ℚ)) (thr : ℚ)
    (refPages : List DocumentPage) :
    List (ℕ × DocumentPage) → List ℕ → ℕ →
      Option (List PagePair × List AlignWarning × List ℕ)
  | [], unmatched, _ => some ([], [], unmatched)
  | (candIndex, candPage) :: rest, unmatched, idx0 =>
    match unmatched with
    | [] => some ([], [AlignWarning.extraCandidate candIndex], [])
    | u0 :: us =>
      match argmaxCheckedFrom matrix candIndex u0 us with
      | none => none
      | some best =>
        match lookupSim matrix best candIndex, refPages.get? best with
        | some score, some refPage =>
          match greedyChecked matrix thr refPages rest
              ((u0 :: us).erase best) (idx0 + 1) with
          | none => none
          | some out =>
            some (⟨idx0, refPage, candPage, score⟩ :: out.1,
              (if score < thr then [AlignWarning.lowConfidence candIndex score]
                else []) ++ out.2.1,
              out.2.2)
        | _, _ => none

/-- Python's stable `pairs.sort(key=lambda pair: pair.reference.index)`:
insert each pair, in original order, after every pair with a key ≤ its
own. -/
def insertPairByRef : PagePair → List PagePair → List PagePair
  | x, [] => [x]
  | x, y :: ys =>
    if y.reference.index ≤ x.reference.index then y :: insertPairByRef x ys
    else x :: y :: ys

def sortPairsByRef (pairs : List PagePair) : List PagePair :=
  pairs.foldl (fun acc x => insertPairByRef x acc) []

/-- The renumbering `pair.index = new_index` after the sort. -/
def renumberPairs (pairs : List PagePair) : List PagePair :=
  pairs.enum.map (fun ip => ⟨ip.1, ip.2.reference, ip.2.candidate, ip.2.confidence⟩)

/-- Warning assembly after the loop: unmatched references, then page-count
mismatch. -/
def closingWarnings (refCount candCount : ℕ) (unmatched : List ℕ)
    (pairCount : ℕ) : List AlignWarning :=
  (if unmatched ≠ [] then
    [AlignWarning.unmatchedRefs unmatched.length unmatched] else [])
  ++ (if refCount ≠ candCount then
    [AlignWarning.pageCountMismatchLimited refCount candCount pairCount] else [])

/-- `align_documents`, faithful (checked) embedding; `none` exactly where
the Python function would raise. -/
def align_documents (reference candidate : DocumentData)
    (low_confidence_threshold : ℚ) :
    Option (List PagePair × List AlignWarning) :=
  if reference.pages = [] ∨ candidate.pages = [] then
    let pw := pairByIndex reference.pages candidate.pages
    some (pw.1,
      pw.2 ++ (if reference.page_count ≠ candidate.page_count then
        [AlignWarning.pageCountMismatchIgnored reference.page_count
          candidate.page_count] else []))
  else
    let matrix := similarityMatrix reference.pages candidate.pages
    match greedyChecked matrix low_confidence_threshold reference.pages
        candidate.pages.enum (List.range reference.pages.length) 0 with
    | none => none
    | some out =>
      some (renumberPairs (sortPairsByRef out.1),
        out.2.1 ++ closingWarnings reference.page_count candidate.page_count
          out.2.2 out.1.length)

/-- `align_documents` with total lookups (provably equal to the checked
embedding, see `align_documents_eq_core`). -/
def alignCore (reference candidate : DocumentData)
    (low_confidence_threshold : ℚ) : List PagePair × List AlignWarning :=
  if reference.pages = [] ∨ candidate.pages = [] then
    let pw := pairByIndex reference.pages candidate.pages
    (pw.1,
      pw.2 ++ (if reference.page_count ≠ candidate.page_count then
        [AlignWarning.pageCountMismatchIgnored reference.page_count
          candidate.page_count] else []))
  else
    let out := greedyAssign (simOf reference.pages candidate.pages)
      low_confidence_threshold reference.pages
      candidate.pages.enum (List.range reference.pages.length) 0
    (renumberPairs (sortPairsByRef out.1),
      out.2.1 ++ closingWarnings reference.page_count candidate.page_count
        out.2.2 out.1.length)

/-! ### The faithful embedding never fails and equals the total one -/

lemma get?_eq_some_getD {α} [Inhabited α] (l : List α) (i : ℕ) (h : i < l.length) :
    l.get? i = some (l.getD i default) := by
  rw [List.getD_eq_getElem?_getD, List.get?_eq_getElem?, List.getElem?_eq_getElem h]
  rfl

lemma lookupSim_matrix (refPages candPages : List DocumentPage) (i j : ℕ)
    (hi : i < refPages.length) (hj : j < candPages.length) :
    lookupSim (similarityMatrix refPages candPages) i j
      = some (simOf refPages candPages i j) := by
  rw [lookupSim, similarityMatrix]
  rw [List.get?_eq_getElem?, List.getElem?_map, List.getElem?_range hi]
  simp only [Option.map_some']
  rw [List.get?_eq_getElem?, List.getElem?_map, List.getElem?_range hj]
  rfl

lemma argmaxFrom_mem (f : ℕ → ℚ) :
    ∀ (l : List ℕ) (best : ℕ), argmaxFrom f best l ∈ best :: l := by
  intro l
  induction l with
  | nil =>
    intro best
    simp [argmaxFrom]
  | cons i rest ih =>
    intro best
    rw [argmaxFrom]
    by_cases h : f best < f i
    · rw [if_pos h]
      have := ih i
      simp only [List.mem_cons] at this ⊢
      tauto
    · rw [if_neg h]
      have := ih best
      simp only [List.mem_cons] at this ⊢
      tauto

lemma argmaxFrom_ge (f : ℕ → ℚ) :
    ∀ (l : List ℕ) (best : ℕ), ∀ y ∈ best :: l, f y ≤ f (argmaxFrom f best l) := by
  intro l
  induction l with
  | nil =>
    intro best y hy
    rw [List.mem_singleton] at hy
    subst hy
    exact le_refl _
  | cons i rest ih =>
    intro best y hy
    rw [argmaxFrom]
    have hstep : f best ≤ f (if f best < f i then i else best)
        ∧ f i ≤ f (if f best < f i then i else best) := by
      by_cases h : f best < f i
      · rw [if_pos h]
        exact ⟨h.le, le_refl _⟩
      · rw [if_neg h]
        exact ⟨le_refl _, not_lt.mp h⟩
    have hrec := ih (if f best < f i then i else best)
    have hself : f (if f best < f i then i else best)
        ≤ f (argmaxFrom f (if f best < f i then i else best) rest) :=
      hrec _ (List.mem_cons_self _ _)
    rcases List.mem_cons.mp hy with rfl | hy2
    · exact hstep.1.trans hself
    · rcases List.mem_cons.mp hy2 with rfl | hy3
      · exact hstep.2.trans hself
      · exact hrec y (List.mem_cons_of_mem _ hy3)

lemma argmaxCheckedFrom_eq (refPages candPages : List DocumentPage) (j : ℕ)
    (hj : j < candPages.length) :
    ∀ (l : List ℕ) (best : ℕ), (∀ x ∈ best :: l, x < refPages.length) →
      argmaxCheckedFrom (similarityMatrix refPages candPages) j best l
        = some (argmaxFrom (fun i => simOf refPages candPages i j) best l) := by
  intro l
  induction l with
  | nil =>
    intro best _
    rfl
  | cons i rest ih =>
    intro best hlt
    rw [argmaxCheckedFrom,
      lookupSim_matrix refPages candPages best j
        (hlt best (List.mem_cons_self _ _)) hj,
      lookupSim_matrix refPages candPages i j
        (hlt i (List.mem_cons_of_mem _ (List.mem_cons_self _ _))) hj]
    rw [argmaxFrom]
    exact ih (if simOf refPages candPages best j < simOf refPages candPages i j
        then i else best)
      (by
        intro x hx
        rcases List.mem_cons.mp hx with rfl | hx2
        · by_cases h : simOf refPages candPages best j < simOf refPages candPages i j
          · rw [if_pos h]
            exact hlt i (List.mem_cons_of_mem _ (List.mem_cons_self _ _))
          · rw [if_neg h]
            exact hlt best (List.mem_cons_self _ _)
        · exact hlt x (List.mem_cons_of_mem _ (List.mem_cons_of_mem _ hx2)))

lemma greedyChecked_eq (refPages candPages : List DocumentPage) (thr : ℚ) :
    ∀ (candList : List (ℕ × DocumentPage)) (unmatched : List ℕ) (idx0 : ℕ),
      (∀ x ∈ unmatched, x < refPages.length) →
      (∀ jp ∈ candList, jp.1 < candPages.length) →
      greedyChecked (similarityMatrix refPages candPages) thr refPages
          candList unmatched idx0
        = some (greedyAssign (simOf refPages candPages) thr refPages
          candList unmatched idx0) := by
  intro candList
  induction candList with
  | nil =>
    intro unmatched idx0 _ _
    rfl
  | cons jp rest ih =>
    intro unmatched idx0 hu hc
    obtain ⟨candIndex, candPage⟩ := jp
    rcases unmatched with _ | ⟨u0, us⟩
    · rfl
    · have hj : candIndex < candPages.length :=
        hc (candIndex, candPage) (List.mem_cons_self _ _)
      have hbestmem : argmaxFrom (fun i => simOf refPages candPages i candIndex)
          u0 us ∈ u0 :: us := argmaxFrom_mem _ us u0
      have hbestlt : argmaxFrom (fun i => simOf refPages candPages i candIndex)
          u0 us < refPages.length := hu _ hbestmem
      rw [greedyChecked, greedyAssign]
      rw [argmaxCheckedFrom_eq refPages candPages candIndex hj us u0 hu]
      simp only
      rw [lookupSim_matrix refPages candPages _ _ hbestlt hj,
        get?_eq_some_getD refPages _ hbestlt]
      simp only
      rw [ih ((u0 :: us).erase
          (argmaxFrom (fun i => simOf refPages candPages i candIndex) u0 us))
        (idx0 + 1)
        (fun x hx => hu x (List.mem_of_mem_erase hx))
        (fun q hq => hc q (List.mem_cons_of_mem _ hq))]

lemma mem_enum_fst_lt {α} (l : List α) (p : ℕ × α) (h : p ∈ l.enum) :
    p.1 < l.length := by
  have := List.mem_enumFrom h
  omega

lemma align_documents_eq_core (reference candidate : DocumentData) (thr : ℚ) :
    align_documents reference candidate thr
      = some (alignCore reference candidate thr) := by
  by_cases h : reference.pages = [] ∨ candidate.pages = []
  · simp only [align_documents, alignCore, if_pos h]
  · simp only [align_documents, alignCore, if_neg h]
    rw [greedyChecked_eq reference.pages candidate.pages thr
      candidate.pages.enum (List.range reference.pages.length) 0
      (fun x hx => List.mem_range.mp hx)
      (fun jp hjp => mem_enum_fst_lt candidate.pages jp hjp)]

/-- C8. Alignment totality: for every pair of input documents (any page
counts, any mix of text/pixel/absent content) and any threshold,
align_documents in a non-interactive context returns normally with a pair
list and a warning list; every anomaly is reported as a warning value,
never an exception (the checked embedding, whose `none` marks exactly the
places where the Python code could raise, always returns `some`). -/
theorem alignment_totality (reference candidate : DocumentData)
    (low_confidence_threshold : ℚ) :
    ∃ pairs warns, align_documents reference candidate low_confidence_threshold
      = some (pairs, warns) :=
  ⟨(alignCore reference candidate low_confidence_threshold).1,
    (alignCore reference candidate low_confidence_threshold).2,
    align_documents_eq_core reference candidate low_confidence_threshold⟩

/-! ### Similarity values on identical, bounded and disjoint pages -/

lemma compareSequences_self (l : List String) :
    (compareSequences l l 10).matching_lines = (compareSequences l l 10).total_lines := by
  simp only [compareSequences, max_self]
  rw [List.filter_eq_self.mpr (fun a _ => by simp)]
  exact List.length_range l.length

lemma compareSequences_self_ratio (l : List String) :
    (compareSequences l l 10).match_ratio = 1 := by
  rw [LineComparison.match_ratio, compareSequences_self]
  by_cases h : (compareSequences l l 10).total_lines = 0
  · rw [if_pos h]
  · rw [if_neg h]
    exact div_self (Nat.cast_ne_zero.mpr h)

lemma compareSequences_matching_le (l1 l2 : List String) :
    (compareSequences l1 l2 10).matching_lines
      ≤ (compareSequences l1 l2 10).total_lines := by
  simp only [compareSequences]
  calc ((List.range (max l1.length l2.length)).filter _).length
      ≤ (List.range (max l1.length l2.length)).length := List.length_filter_le _ _
    _ = max l1.length l2.length := List.length_range _

lemma compareSequences_ratio_le_one (l1 l2 : List String) :
    (compareSequences l1 l2 10).match_ratio ≤ 1 := by
  rw [LineComparison.match_ratio]
  by_cases h : (compareSequences l1 l2 10).total_lines = 0
  · rw [if_pos h]
  · rw [if_neg h]
    rw [div_le_one (by exact_mod_cast Nat.pos_of_ne_zero h)]
    exact_mod_cast compareSequences_matching_le l1 l2

lemma imageSimilarity_self (img : List (List ℚ)) (h1 : img.length ≠ 0)
    (h2 : (img.head?.getD []).length ≠ 0) :
    imageSimilarity (some img) (some img) = some 1 := by
  rw [imageSimilarity]
  simp only [min_self]
  rw [if_neg (by tauto)]
  have hz : ((List.range img.length).map (fun i =>
      ((List.range (img.head?.getD []).length).map (fun j =>
        |((img.getD i []).getD j 0) - ((img.getD i []).getD j 0)|)).sum)).sum = 0 := by
    simp
  rw [hz]
  norm_num

lemma imageSimilarity_bounds (a b : Option (List (List ℚ))) (s : ℚ)
    (h : imageSimilarity a b = some s) : 0 ≤ s ∧ s ≤ 1 := by
  rcases a with _ | r
  · simp [imageSimilarity] at h
  rcases b with _ | c
  · simp [imageSimilarity] at h
  rw [imageSimilarity] at h
  by_cases hz : min r.length c.length = 0
    ∨ min (r.head?.getD []).length (c.head?.getD []).length = 0
  · rw [if_pos hz] at h
    exact absurd h (by simp)
  · rw [if_neg hz] at h
    simp only [Option.some.injEq] at h
    subst h
    exact ⟨le_max_left 0 _, max_le (by norm_num) (min_le_left 1 _)⟩

lemma avg_le_one (l : List ℚ) (hne : l ≠ []) (hb : ∀ s ∈ l, s ≤ 1) :
    l.sum / (l.length : ℚ) ≤ 1 := by
  have hpos : (0 : ℚ) < (l.length : ℚ) := by
    have := List.length_pos.mpr hne
    exact_mod_cast this
  rw [div_le_one hpos]
  have := List.sum_le_card_nsmul l 1 hb
  rw [nsmul_eq_mul, mul_one] at this
  exact this

lemma contentScores_ne_nil (rp cp : DocumentPage) : contentScores rp cp ≠ [] := by
  rw [contentScores]
  split
  · simp
  · assumption

lemma mem_imageScoresOf (rp cp : DocumentPage) (s : ℚ)
    (hs : s ∈ imageScoresOf rp cp) : imageSimilarity rp.image cp.image = some s := by
  rw [imageScoresOf] at hs
  rcases himg : imageSimilarity rp.image cp.image with _ | v <;> rw [himg] at hs
  · exact absurd hs (List.not_mem_nil s)
  · rw [List.mem_singleton] at hs
    subst hs
    rfl

lemma contentScores_all_le_one (rp cp : DocumentPage) :
    ∀ s ∈ contentScores rp cp, s ≤ 1 := by
  intro s hs
  rw [contentScores] at hs
  split at hs
  · rw [List.mem_singleton] at hs
    subst hs
    norm_num
  · rcases List.mem_append.mp hs with h2 | h2
    · rw [textScoresOf] at h2
      split at h2
      · rw [List.mem_singleton] at h2
        subst h2
        exact compareSequences_ratio_le_one _ _
      · exact absurd h2 (List.not_mem_nil s)
    · exact (imageSimilarity_bounds _ _ _ (mem_imageScoresOf rp cp s h2)).2

lemma contentScores_self (pg : DocumentPage)
    (h : pg.text_lines ≠ []
      ∨ ∃ img, pg.image = some img ∧ img.length ≠ 0
          ∧ (img.head?.getD []).length ≠ 0) :
    contentScores pg pg = [1] ∨ contentScores pg pg = [1, 1] := by
  have himgself : imageScoresOf pg pg = [] ∨ imageScoresOf pg pg = [1] := by
    rw [imageScoresOf]
    rcases himg : pg.image with _ | img
    · left
      rfl
    · by_cases hdim : img.length ≠ 0 ∧ (img.head?.getD []).length ≠ 0
      · right
        rw [imageSimilarity_self img hdim.1 hdim.2]
      · left
        have hnone : imageSimilarity (some img) (some img) = none := by
          rw [imageSimilarity]
          simp only [min_self]
          rw [if_pos (by tauto)]
        rw [hnone]
  by_cases ht : pg.text_lines ≠ []
  · have htext : textScoresOf pg pg = [1] := by
      rw [textScoresOf, if_pos (Or.inl ht), compareSequences_self_ratio]
    rcases himgself with hi | hi
    · left
      rw [contentScores, htext, hi]
      rfl
    · right
      rw [contentScores, htext, hi]
      rfl
  · have htext : textScoresOf pg pg = [] := by
      rw [textScoresOf, if_neg (by tauto)]
    rcases h with hx | ⟨img, himg, h1, h2⟩
    · exact absurd hx ht
    · have hi : imageScoresOf pg pg = [1] := by
        rw [imageScoresOf, himg, imageSimilarity_self img h1 h2]
      left
      rw [contentScores, htext, hi]
      rfl

lemma orderScoreOf_self (i m n : ℕ) : orderScoreOf i i m n = 1 := by
  simp [orderScoreOf]

lemma orderScoreOf_nonneg (i j m n : ℕ) : 0 ≤ orderScoreOf i j m n := by
  rw [orderScoreOf]
  have : min 1 (|(i : ℚ) - (j : ℚ)| / ((max m (max n 1) : ℕ) : ℚ)) ≤ 1 :=
    min_le_left _ _
  linarith

lemma orderScoreOf_le_one (i j m n : ℕ) : orderScoreOf i j m n ≤ 1 := by
  rw [orderScoreOf]
  have h0 : (0 : ℚ) ≤ |(i : ℚ) - (j : ℚ)| / ((max m (max n 1) : ℕ) : ℚ) := by
    positivity
  have : (0 : ℚ) ≤ min 1 (|(i : ℚ) - (j : ℚ)| / ((max m (max n 1) : ℕ) : ℚ)) :=
    le_min (by norm_num) h0
  linarith

lemma orderScoreOf_lt_one_of_ne (i j m n : ℕ) (hne : i ≠ j) :
    orderScoreOf i j m n < 1 := by
  rw [orderScoreOf]
  have hM1 : (1 : ℚ) ≤ ((max m (max n 1) : ℕ) : ℚ) := by
    have : 1 ≤ max m (max n 1) := le_trans (le_max_right n 1) (le_max_right m _)
    exact_mod_cast this
  have hM0 : (0 : ℚ) < ((max m (max n 1) : ℕ) : ℚ) := lt_of_lt_of_le one_pos hM1
  have habs : (0 : ℚ) < |(i : ℚ) - (j : ℚ)| := by
    rw [abs_pos, sub_ne_zero]
    exact_mod_cast hne
  have hpen : (0 : ℚ) < min 1 (|(i : ℚ) - (j : ℚ)| / ((max m (max n 1) : ℕ) : ℚ)) :=
    lt_min one_pos (by positivity)
  linarith

lemma pageSimilarity_le_one (rp cp : DocumentPage) (i j m n : ℕ) :
    pageSimilarity rp cp i j m n ≤ 1 := by
  rw [pageSimilarity]
  exact max_le (by norm_num) (min_le_left 1 _)

lemma pageSimilarity_self (pg : DocumentPage) (i m n : ℕ)
    (h : pg.text_lines ≠ []
      ∨ ∃ img, pg.image = some img ∧ img.length ≠ 0
          ∧ (img.head?.getD []).length ≠ 0) :
    pageSimilarity pg pg i i m n = 1 := by
  rw [pageSimilarity, orderScoreOf_self]
  rcases contentScores_self pg h with hs | hs <;> rw [hs] <;> norm_num

lemma pageSimilarity_lt_one_of_ne (rp cp : DocumentPage) (i j m n : ℕ)
    (hne : i ≠ j) : pageSimilarity rp cp i j m n < 1 := by
  rw [pageSimilarity]
  have hc : (contentScores rp cp).sum / ((contentScores rp cp).length : ℚ) ≤ 1 :=
    avg_le_one _ (contentScores_ne_nil rp cp) (contentScores_all_le_one rp cp)
  have ho : orderScoreOf i j m n < 1 := orderScoreOf_lt_one_of_ne i j m n hne
  have hblend : (contentScores rp cp).sum / ((contentScores rp cp).length : ℚ) * (4/5)
      + orderScoreOf i j m n * (1/5) < 1 := by nlinarith
  exact max_lt one_pos (lt_of_le_of_lt (min_le_right 1 _) hblend)

/-! ### The greedy loop on a perfectly matched input -/

lemma getD_of_mem_enum {α} [Inhabited α] (l : List α) (p : ℕ × α)
    (h : p ∈ l.enum) : l.getD p.1 default = p.2 := by
  obtain ⟨i, x⟩ := p
  rw [List.mk_mem_enum_iff_getElem?] at h
  rw [List.getD_eq_getElem?_getD, h]
  rfl

lemma enum_pairwise_fst_ne {α} (l : List α) :
    List.Pairwise (fun (a b : ℕ × α) => a.1 ≠ b.1) l.enum := by
  have h2 : (l.enum.map Prod.fst).Nodup := by
    rw [List.enum_map_fst]
    exact List.nodup_range _
  exact List.pairwise_map.mp h2

lemma snd_mem_of_mem_enum {α} (l : List α) (p : ℕ × α) (h : p ∈ l.enum) :
    p.2 ∈ l := by
  have h3 := (List.mem_enumFrom h).2.2
  rw [h3]
  exact List.getElem_mem _

/-- When every candidate's own reference scores exactly 1, every other
unmatched reference scores strictly below 1, and the threshold is at most
1, the greedy loop matches every candidate (at confidence 1), records no
warnings, and shrinks the unmatched list by one per candidate. -/
lemma greedyAssign_perfect (sim : ℕ → ℕ → ℚ) (thr : ℚ)
    (refPages : List DocumentPage) (hthr : thr ≤ 1) :
    ∀ (candList : List (ℕ × DocumentPage)) (unmatched : List ℕ) (idx0 : ℕ),
      (∀ jp ∈ candList, jp.1 ∈ unmatched) →
      (∀ jp ∈ candList, sim jp.1 jp.1 = 1) →
      (∀ jp ∈ candList, ∀ i ∈ unmatched, i ≠ jp.1 → sim i jp.1 < 1) →
      List.Pairwise (fun (a b : ℕ × DocumentPage) => a.1 ≠ b.1) candList →
      (greedyAssign sim thr refPages candList unmatched idx0).1.length
          = candList.length
      ∧ (∀ pr ∈ (greedyAssign sim thr refPages candList unmatched idx0).1,
          pr.confidence = 1)
      ∧ (greedyAssign sim thr refPages candList unmatched idx0).2.1 = []
      ∧ (greedyAssign sim thr refPages candList unmatched idx0).2.2.length
          = unmatched.length - candList.length := by
  intro candList
  induction candList with
  | nil =>
    intro unmatched idx0 _ _ _ _
    refine ⟨rfl, ?_, rfl, rfl⟩
    intro pr hpr
    exact absurd hpr (List.not_mem_nil pr)
  | cons jp rest ih =>
    intro unmatched idx0 hmem hself hothers hpw
    obtain ⟨j, pg⟩ := jp
    have hjmem : j ∈ unmatched := hmem (j, pg) (List.mem_cons_self _ _)
    rcases hum : unmatched with _ | ⟨u0, us⟩
    · rw [hum] at hjmem
      exact absurd hjmem (List.not_mem_nil j)
    · rw [hum] at hjmem
      have hbestmem : argmaxFrom (fun i => sim i j) u0 us ∈ u0 :: us :=
        argmaxFrom_mem _ us u0
      have hbestge : sim j j ≤ sim (argmaxFrom (fun i => sim i j) u0 us) j :=
        argmaxFrom_ge (fun i => sim i j) us u0 j hjmem
      have hjj : sim j j = 1 := hself (j, pg) (List.mem_cons_self _ _)
      have hbest : argmaxFrom (fun i => sim i j) u0 us = j := by
        by_contra hcon
        have hlt := hothers (j, pg) (List.mem_cons_self _ _)
          (argmaxFrom (fun i => sim i j) u0 us) (hum ▸ hbestmem) hcon
        rw [hjj] at hbestge
        exact absurd (lt_of_le_of_lt hbestge hlt) (lt_irrefl 1)
      have hscore : sim (argmaxFrom (fun i => sim i j) u0 us) j = 1 := by
        rw [hbest, hjj]
      have hnowarn : ¬ sim (argmaxFrom (fun i => sim i j) u0 us) j < thr := by
        rw [hscore]
        exact not_lt.mpr hthr
      have hrec := ih ((u0 :: us).erase (argmaxFrom (fun i => sim i j) u0 us))
        (idx0 + 1)
        (by
          intro q hq
          have hne : q.1 ≠ j := by
            have := List.pairwise_cons.mp hpw
            exact (this.1 q hq).symm ∘ Eq.symm ∘ Eq.symm
          rw [hbest]
          exact (List.mem_erase_of_ne hne).mpr (hum ▸ hmem q (List.mem_cons_of_mem _ hq))
        )
        (fun q hq => hself q (List.mem_cons_of_mem _ hq))
        (by
          intro q hq i hi hne
          exact hothers q (List.mem_cons_of_mem _ hq) i
            (hum ▸ List.mem_of_mem_erase hi) hne)
        ((List.pairwise_cons.mp hpw).2)
      have hlen : ((u0 :: us).erase (argmaxFrom (fun i => sim i j) u0 us)).length
          = (u0 :: us).length - 1 := by
        rw [hbest]
        exact List.length_erase_of_mem hjmem
      rw [greedyAssign]
      simp only
      refine ⟨?_, ?_, ?_, ?_⟩
      · simp only [List.length_cons, hrec.1]
      · intro pr hpr
        rcases List.mem_cons.mp hpr with rfl | hpr2
        · exact hscore
        · exact hrec.2.1 pr hpr2
      · rw [if_neg hnowarn]
        simp only [List.nil_append]
        exact hrec.2.2.1
      · rw [hrec.2.2.2, hlen]
        simp only [List.length_cons]
        omega

/-! ### Sorting and renumbering preserve pair data -/

lemma insertPairByRef_perm (x : PagePair) :
    ∀ (l : List PagePair), List.Perm (insertPairByRef x l) (x :: l) := by
  intro l
  induction l with
  | nil => rfl
  | cons y ys ih =>
    rw [insertPairByRef]
    split
    · exact (List.Perm.cons y ih).trans (List.Perm.swap x y ys)
    · exact List.Perm.refl _

lemma sortPairsByRef_perm (l : List PagePair) :
    List.Perm (sortPairsByRef l) l := by
  suffices h : ∀ (l acc : List PagePair),
      List.Perm (List.foldl (fun acc x => insertPairByRef x acc) acc l) (acc ++ l) by
    simpa using h l []
  intro l
  induction l with
  | nil =>
    intro acc
    simp
  | cons x xs ih =>
    intro acc
    rw [List.foldl_cons]
    refine (ih (insertPairByRef x acc)).trans ?_
    refine (List.Perm.append_right xs (insertPairByRef_perm x acc)).trans ?_
    exact (List.perm_middle).symm

lemma renumberPairs_length (l : List PagePair) :
    (renumberPairs l).length = l.length := by
  simp [renumberPairs, List.enum_length]

lemma renumberPairs_mem (l : List PagePair) (pr : PagePair)
    (h : pr ∈ renumberPairs l) :
    ∃ q ∈ l, pr.reference = q.reference ∧ pr.candidate = q.candidate
      ∧ pr.confidence = q.confidence := by
  rw [renumberPairs] at h
  obtain ⟨ip, hip, hpr⟩ := List.mem_map.mp h
  refine ⟨ip.2, snd_mem_of_mem_enum l ip hip, ?_, ?_, ?_⟩ <;> rw [← hpr]

/-- C6 amended. Alignment identity: if reference and candidate have
identical page sequences (same content, same order), each with at least one
page, and every page carries at least one text line or a non-empty pixel
grid (a page with neither gets the neutral content score 0.5 and
confidence 0.6 — see the counterexample), then align_documents at the
default threshold 0.6 returns one PagePair per page with confidence
exactly 1.0 for every pair, and an empty warning list. -/
theorem alignment_identity_amended (reference candidate : DocumentData)
    (heq : reference.pages = candidate.pages)
    (hnonempty : candidate.pages ≠ [])
    (hcontent : ∀ pg ∈ candidate.pages, pg.text_lines ≠ []
      ∨ ∃ img, pg.image = some img ∧ img.length ≠ 0
          ∧ (img.head?.getD []).length ≠ 0) :
    ∀ pairs warns,
      align_documents reference candidate (3/5) = some (pairs, warns) →
        pairs.length = candidate.pages.length
        ∧ (∀ pr ∈ pairs, pr.confidence = 1)
        ∧ warns = [] := by
  intro pairs warns halign
  have hg : ¬(reference.pages = [] ∨ candidate.pages = []) := by
    rw [heq]
    simp [hnonempty]
  rw [align_documents_eq_core] at halign
  simp only [Option.some.injEq] at halign
  simp only [alignCore, DocumentData.page_count] at halign
  rw [if_neg hg] at halign
  rw [heq] at halign
  rw [Prod.mk.injEq] at halign
  obtain ⟨hp, hw⟩ := halign
  have hperfect := greedyAssign_perfect
    (simOf candidate.pages candidate.pages) (3/5) candidate.pages (by norm_num)
    candidate.pages.enum (List.range candidate.pages.length) 0
    (fun jp hjp => List.mem_range.mpr (mem_enum_fst_lt candidate.pages jp hjp))
    (by
      intro jp hjp
      rw [simOf, getD_of_mem_enum candidate.pages jp hjp]
      exact pageSimilarity_self jp.2 jp.1 candidate.pages.length
        candidate.pages.length
        (hcontent jp.2 (snd_mem_of_mem_enum candidate.pages jp hjp)))
    (fun jp hjp i hi hne => pageSimilarity_lt_one_of_ne _ _ i jp.1 _ _ hne)
    (enum_pairwise_fst_ne candidate.pages)
  have hlen1 : (greedyAssign (simOf candidate.pages candidate.pages) (3/5)
      candidate.pages candidate.pages.enum
      (List.range candidate.pages.length) 0).1.length
      = candidate.pages.length := by
    rw [hperfect.1, List.enum_length]
  have hunmatched : (greedyAssign (simOf candidate.pages candidate.pages) (3/5)
      candidate.pages candidate.pages.enum
      (List.range candidate.pages.length) 0).2.2 = [] := by
    rw [← List.length_eq_zero, hperfect.2.2.2, List.enum_length,
      List.length_range]
    omega
  refine ⟨?_, ?_, ?_⟩
  · rw [← hp, renumberPairs_length,
      List.Perm.length_eq (sortPairsByRef_perm _), hlen1]
  · intro pr hpr
    rw [← hp] at hpr
    obtain ⟨q, hq, _, _, hconf⟩ := renumberPairs_mem _ pr hpr
    have hqmem : q ∈ (greedyAssign (simOf candidate.pages candidate.pages) (3/5)
        candidate.pages candidate.pages.enum
        (List.range candidate.pages.length) 0).1 :=
      (sortPairsByRef_perm _).mem_iff.mp hq
    rw [hconf]
    exact hperfect.2.1 q hqmem
  · rw [← hw, hperfect.2.2.1, closingWarnings, if_neg (by rw [hunmatched]; simp),
      if_neg (by simp)]
    rfl

/-- A page with no text lines and no pixel grid (a loader fallback). -/
def pgEmpty : DocumentPage := ⟨0, [], none, none, []⟩

/-- A document whose only page is `pgEmpty`. -/
def docEmpty : DocumentData := ⟨"doc", [], "sha", [pgEmpty], []⟩

lemma simOf_empty : simOf [pgEmpty] [pgEmpty] 0 0 = 3/5 := by
  have hcs : contentScores pgEmpty pgEmpty = [(1:ℚ)/2] := by
    rw [contentScores, textScoresOf, imageScoresOf]
    norm_num [pgEmpty, imageSimilarity]
  rw [simOf]
  show pageSimilarity pgEmpty pgEmpty 0 0 1 1 = 3/5
  rw [pageSimilarity, hcs, orderScoreOf_self]
  norm_num [min_def, max_def]

/-- C6 counterexample: two identical documents whose single page has no
text lines and no pixel grid. The page pair produced for them has
confidence 0.6 (neutral content score 0.5, blended 0.5·0.8 + 1·0.2), not
1.0, although the documents are identical in content and order with one
page each. (The warning list is indeed empty: 0.6 is not below the default
threshold.) -/
theorem alignment_identity_counterexample :
    align_documents docEmpty docEmpty (3/5)
      = some ([⟨0, pgEmpty, pgEmpty, 3/5⟩], [])
    ∧ ((3/5 : ℚ) ≠ 1) := by
  constructor
  · rw [align_documents_eq_core]
    refine congrArg some ?_
    have hG : greedyAssign (simOf [pgEmpty] [pgEmpty]) (3/5) [pgEmpty]
        [(0, pgEmpty)] [0] 0 = ([⟨0, pgEmpty, pgEmpty, 3/5⟩], [], []) := by
      rw [greedyAssign]
      simp only [argmaxFrom, simOf_empty]
      rw [if_neg (by norm_num)]
      rw [greedyAssign]
      rfl
    have henum : (docEmpty.pages).enum = [(0, pgEmpty)] := rfl
    have hrange : List.range (docEmpty.pages).length = [0] := rfl
    rw [alignCore, if_neg (by simp [docEmpty])]
    simp only [henum, hrange]
    show (renumberPairs (sortPairsByRef (greedyAssign
          (simOf docEmpty.pages docEmpty.pages) (3/5) docEmpty.pages
          [(0, pgEmpty)] [0] 0).1),
        _ ++ closingWarnings docEmpty.page_count docEmpty.page_count _ _)
      = ([⟨0, pgEmpty, pgEmpty, 3/5⟩], [])
    have hpages : docEmpty.pages = [pgEmpty] := rfl
    rw [hpages, hG]
    rfl
  · norm_num

/-- A document whose only page carries one text line. -/
def docAlpha : DocumentData :=
  ⟨"doc", [], "sha", [⟨0, ["alpha"], none, none, []⟩], []⟩

/-- Witness for `alignment_identity_amended` at a concrete one-page text
document. -/
theorem alignment_identity_amended_witness :
    (align_documents docAlpha docAlpha (3/5)).map
        (fun out => (out.1.length, out.1.map PagePair.confidence, out.2))
      = some (1, [1], []) := by
  have hcore := align_documents_eq_core docAlpha docAlpha (3/5)
  have h := alignment_identity_amended docAlpha docAlpha rfl
    (by simp [docAlpha])
    (by
      intro pg hpg
      simp only [docAlpha, List.mem_singleton] at hpg
      subst hpg
      left
      simp)
    (alignCore docAlpha docAlpha (3/5)).1 (alignCore docAlpha docAlpha (3/5)).2
    (by exact hcore)
  rw [hcore]
  simp only [Option.map_some']
  refine congrArg some ?_
  have hlen : (alignCore docAlpha docAlpha (3/5)).1.length = 1 := by
    rw [h.1]
    rfl
  have hconf : (alignCore docAlpha docAlpha (3/5)).1.map PagePair.confidence
      = [1] := by
    have : ([(1 : ℚ)] = List.replicate 1 (1 : ℚ)) := rfl
    rw [this]
    rw [List.eq_replicate_iff]
    constructor
    · rw [List.length_map, hlen]
    · intro b hb
      obtain ⟨pr, hpr, hb2⟩ := List.mem_map.mp hb
      rw [← hb2]
      exact h.2.1 pr hpr
  rw [hlen, hconf, h.2.2]

/-! ### Similarity on pages with disjoint line sets -/

lemma compareSequences_disjoint_matching (l1 l2 : List String)
    (hdisj : ∀ s ∈ l1, s ∉ l2) (h1 : "" ∉ l1) (h2 : "" ∉ l2) :
    (compareSequences l1 l2 10).matching_lines = 0 := by
  simp only [compareSequences]
  rw [List.length_eq_zero, List.filter_eq_nil_iff]
  intro i hi
  simp only [decide_eq_true_eq]
  intro heq
  by_cases ha : i < l1.length
  · have hmem1 : l1.getD i "" ∈ l1 := by
      rw [List.getD_eq_getElem l1 "" ha]
      exact List.getElem_mem _
    by_cases hb : i < l2.length
    · have hmem2 : l2.getD i "" ∈ l2 := by
        rw [List.getD_eq_getElem l2 "" hb]
        exact List.getElem_mem _
      exact hdisj _ hmem1 (heq ▸ hmem2)
    · have hdef : l2.getD i "" = "" := by
        rw [List.getD_eq_getElem?_getD, List.getElem?_eq_none (not_lt.mp hb)]
        rfl
      rw [hdef] at heq
      rw [heq] at hmem1
      exact h1 hmem1
  · have hb : i < l2.length := by
      have hmax := List.mem_range.mp hi
      rcases lt_max_iff.mp hmax with h3 | h3
      · exact absurd h3 ha
      · exact h3
    have hdef : l1.getD i "" = "" := by
      rw [List.getD_eq_getElem?_getD, List.getElem?_eq_none (not_lt.mp ha)]
      rfl
    have hmem2 : l2.getD i "" ∈ l2 := by
      rw [List.getD_eq_getElem l2 "" hb]
      exact List.getElem_mem _
    rw [hdef] at heq
    rw [← heq] at hmem2
    exact h2 hmem2

lemma compareSequences_disjoint_ratio (l1 l2 : List String)
    (hdisj : ∀ s ∈ l1, s ∉ l2) (hne : l1 ≠ [])
    (h1 : "" ∉ l1) (h2 : "" ∉ l2) :
    (compareSequences l1 l2 10).match_ratio = 0 := by
  have htot : (compareSequences l1 l2 10).total_lines ≠ 0 := by
    simp only [compareSequences]
    have := List.length_pos.mpr hne
    omega
  rw [LineComparison.match_ratio, if_neg htot,
    compareSequences_disjoint_matching l1 l2 hdisj h1 h2]
  norm_num

lemma imageScoresOf_none (rp cp : DocumentPage) (himg : rp.image = none) :
    imageScoresOf rp cp = [] := by
  have hnone : imageSimilarity rp.image cp.image = none := by
    rw [himg]
    rcases cp.image with _ | c <;> rfl
  rw [imageScoresOf, hnone]

lemma pageSimilarity_ge_of_eq (rp cp : DocumentPage) (i j m n : ℕ)
    (htext : rp.text_lines = cp.text_lines) (hne : rp.text_lines ≠ [])
    (himg : rp.image = none) :
    4/5 ≤ pageSimilarity rp cp i j m n := by
  have hcs : contentScores rp cp = [1] := by
    rw [contentScores, textScoresOf, if_pos (Or.inl hne), htext,
      compareSequences_self_ratio, imageScoresOf_none rp cp himg]
    rfl
  rw [pageSimilarity, hcs]
  simp only [List.sum_cons, List.sum_nil, List.length_cons, List.length_nil]
  have ho1 : orderScoreOf i j m n ≤ 1 := orderScoreOf_le_one i j m n
  have ho0 : 0 ≤ orderScoreOf i j m n := orderScoreOf_nonneg i j m n
  have hval : ((1 : ℚ) + 0) / (((0 : ℕ) + 1 : ℕ) : ℚ) * (4/5) = 4/5 := by
    norm_num
  refine le_trans (le_min (by norm_num) ?_) (le_max_right 0 _)
  rw [hval]
  linarith

lemma pageSimilarity_le_of_disjoint (rp cp : DocumentPage) (i j m n : ℕ)
    (hdisj : ∀ s ∈ rp.text_lines, s ∉ cp.text_lines)
    (hrne : rp.text_lines ≠ [])
    (h1 : "" ∉ rp.text_lines) (h2 : "" ∉ cp.text_lines)
    (himg : rp.image = none) :
    pageSimilarity rp cp i j m n ≤ 1/5 := by
  have hcs : contentScores rp cp = [0] := by
    rw [contentScores, textScoresOf, if_pos (Or.inl hrne),
      compareSequences_disjoint_ratio rp.text_lines cp.text_lines hdisj hrne h1 h2,
      imageScoresOf_none rp cp himg]
    rfl
  rw [pageSimilarity, hcs]
  simp only [List.sum_cons, List.sum_nil, List.length_cons, List.length_nil]
  have ho1 : orderScoreOf i j m n ≤ 1 := orderScoreOf_le_one i j m n
  have hval : ((0 : ℚ) + 0) / (((0 : ℕ) + 1 : ℕ) : ℚ) * (4/5) = 0 := by
    norm_num
  refine max_le (by norm_num) (le_trans (min_le_right 1 _) ?_)
  rw [hval]
  linarith

/-- The greedy loop pairs by content: when the multiset of unmatched
reference page contents equals the multiset of remaining candidate page
contents, every content-equal (reference, candidate) combination scores at
least 0.8, and every content-different combination scores at most 0.2, the
loop produces one pair per candidate and every pair joins pages of equal
content. -/
lemma greedyAssign_content (sim : ℕ → ℕ → ℚ) (thr : ℚ)
    (refPages : List DocumentPage) :
    ∀ (candList : List (ℕ × DocumentPage)) (unmatched : List ℕ) (idx0 : ℕ),
      List.Perm (unmatched.map (fun i => (refPages.getD i default).text_lines))
        (candList.map (fun jp => jp.2.text_lines)) →
      (∀ jp ∈ candList, ∀ i ∈ unmatched,
        (refPages.getD i default).text_lines = jp.2.text_lines →
          4/5 ≤ sim i jp.1) →
      (∀ jp ∈ candList, ∀ i ∈ unmatched,
        (refPages.getD i default).text_lines ≠ jp.2.text_lines →
          sim i jp.1 ≤ 1/5) →
      (greedyAssign sim thr refPages candList unmatched idx0).1.length
          = candList.length
      ∧ ∀ pr ∈ (greedyAssign sim thr refPages candList unmatched idx0).1,
          pr.reference.text_lines = pr.candidate.text_lines := by
  intro candList
  induction candList with
  | nil =>
    intro unmatched idx0 _ _ _
    refine ⟨rfl, ?_⟩
    intro pr hpr
    exact absurd hpr (List.not_mem_nil pr)
  | cons jp rest ih =>
    intro unmatched idx0 hperm hhi hlo
    obtain ⟨j, pg⟩ := jp
    have hmemtext : pg.text_lines
        ∈ unmatched.map (fun i => (refPages.getD i default).text_lines) := by
      apply hperm.mem_iff.mpr
      simp only [List.map_cons]
      exact List.mem_cons_self _ _
    obtain ⟨istar, histar, hceq⟩ := List.mem_map.mp hmemtext
    rcases hum : unmatched with _ | ⟨u0, us⟩
    · rw [hum] at histar
      exact absurd histar (List.not_mem_nil istar)
    · rw [hum] at histar hperm hhi hlo
      have hbestmem : argmaxFrom (fun i => sim i j) u0 us ∈ u0 :: us :=
        argmaxFrom_mem _ us u0
      have hge : sim istar j ≤ sim (argmaxFrom (fun i => sim i j) u0 us) j :=
        argmaxFrom_ge (fun i => sim i j) us u0 istar histar
      have histar45 : 4/5 ≤ sim istar j :=
        hhi (j, pg) (List.mem_cons_self _ _) istar histar hceq
      have hbest45 : 4/5 ≤ sim (argmaxFrom (fun i => sim i j) u0 us) j :=
        le_trans histar45 hge
      have hbesteq : (refPages.getD (argmaxFrom (fun i => sim i j) u0 us)
          default).text_lines = pg.text_lines := by
        by_contra hcon
        have := hlo (j, pg) (List.mem_cons_self _ _)
          (argmaxFrom (fun i => sim i j) u0 us) hbestmem hcon
        linarith
      have hpermrec : List.Perm
          (((u0 :: us).erase (argmaxFrom (fun i => sim i j) u0 us)).map
            (fun i => (refPages.getD i default).text_lines))
          (rest.map (fun jp => jp.2.text_lines)) := by
        have hsplit : List.Perm (u0 :: us)
            ((argmaxFrom (fun i => sim i j) u0 us)
              :: (u0 :: us).erase (argmaxFrom (fun i => sim i j) u0 us)) :=
          List.perm_cons_erase hbestmem
        have hmap := hsplit.map (fun i => (refPages.getD i default).text_lines)
        have hchain := (hmap.symm.trans hperm)
        rw [List.map_cons, hbesteq] at hchain
        simp only [List.map_cons] at hchain
        exact hchain.cons_inv
      have hrec := ih ((u0 :: us).erase (argmaxFrom (fun i => sim i j) u0 us))
        (idx0 + 1) hpermrec
        (fun q hq i hi hc => hhi q (List.mem_cons_of_mem _ hq) i
          (List.mem_of_mem_erase hi) hc)
        (fun q hq i hi hc => hlo q (List.mem_cons_of_mem _ hq) i
          (List.mem_of_mem_erase hi) hc)
      rw [greedyAssign]
      simp only
      constructor
      · simp only [List.length_cons, hrec.1]
      · intro pr hpr
        rcases List.mem_cons.mp hpr with rfl | hpr2
        · exact hbesteq
        · exact hrec.2 pr hpr2

lemma range_map_getD {α β} [Inhabited α] (l : List α) (g : α → β) :
    (List.range l.length).map (fun i => g (l.getD i default)) = l.map g := by
  apply List.ext_getElem
  · simp
  · intro i h1 h2
    have hi : i < l.length := by simpa using h2
    simp only [List.getElem_map, List.getElem_range]
    rw [List.getD_eq_getElem l default hi]

lemma enum_map_text (l : List DocumentPage) :
    l.enum.map (fun jp => jp.2.text_lines) = l.map DocumentPage.text_lines := by
  conv_rhs => rw [← List.enum_map_snd l, List.map_map]
  rfl

/-- C7 amended. Alignment under permutation: if the candidate's page
contents are a permutation (as a multiset) of the reference's page
contents, every reference page has at least one text line, no empty-string
line and no pixel grid, no candidate page contains the empty-string line,
and pages with different contents share no line at all, then
align_documents pairs each candidate page with a reference page of exactly
the same content — content-based matching, not positional. (Without the
no-shared-line condition a candidate page can be captured by a closer
reference page whose content merely overlaps, see the counterexample.) -/
theorem alignment_permutation_amended (reference candidate : DocumentData)
    (hne : reference.pages ≠ [])
    (hperm : List.Perm (reference.pages.map DocumentPage.text_lines)
      (candidate.pages.map DocumentPage.text_lines))
    (hrefok : ∀ pg ∈ reference.pages,
      pg.text_lines ≠ [] ∧ "" ∉ pg.text_lines ∧ pg.image = none)
    (hcandok : ∀ pg ∈ candidate.pages, "" ∉ pg.text_lines)
    (hdisj : ∀ rp ∈ reference.pages, ∀ cp ∈ candidate.pages,
      rp.text_lines ≠ cp.text_lines → ∀ s ∈ rp.text_lines, s ∉ cp.text_lines) :
    ∀ pairs warns,
      align_documents reference candidate (3/5) = some (pairs, warns) →
        pairs.length = candidate.pages.length
        ∧ ∀ pr ∈ pairs, pr.reference.text_lines = pr.candidate.text_lines := by
  intro pairs warns halign
  have hlens : reference.pages.length = candidate.pages.length := by
    have := hperm.length_eq
    simpa using this
  have hcne : candidate.pages ≠ [] := by
    intro h
    rw [h] at hlens
    simp only [List.length_nil] at hlens
    exact hne (List.length_eq_zero.mp hlens)
  have hg : ¬(reference.pages = [] ∨ candidate.pages = []) := by
    simp [hne, hcne]
  rw [align_documents_eq_core] at halign
  simp only [Option.some.injEq] at halign
  simp only [alignCore] at halign
  rw [if_neg hg] at halign
  rw [Prod.mk.injEq] at halign
  obtain ⟨hp, hw⟩ := halign
  have hpermarg : List.Perm
      ((List.range reference.pages.length).map
        (fun i => (reference.pages.getD i default).text_lines))
      (candidate.pages.enum.map (fun jp => jp.2.text_lines)) := by
    rw [range_map_getD reference.pages DocumentPage.text_lines,
      enum_map_text candidate.pages]
    exact hperm
  have hcontent := greedyAssign_content
    (simOf reference.pages candidate.pages) (3/5) reference.pages
    candidate.pages.enum (List.range reference.pages.length) 0
    hpermarg
    (by
      intro jp hjp i hi hceq
      have hcget : candidate.pages.getD jp.1 default = jp.2 :=
        getD_of_mem_enum _ _ hjp
      have hilt : i < reference.pages.length := List.mem_range.mp hi
      have hrmem : reference.pages.getD i default ∈ reference.pages := by
        rw [List.getD_eq_getElem reference.pages default hilt]
        exact List.getElem_mem _
      obtain ⟨hne2, _, himg⟩ := hrefok _ hrmem
      rw [simOf, hcget]
      exact pageSimilarity_ge_of_eq _ _ i jp.1 _ _ hceq hne2 himg)
    (by
      intro jp hjp i hi hcne2
      have hcget : candidate.pages.getD jp.1 default = jp.2 :=
        getD_of_mem_enum _ _ hjp
      have hilt : i < reference.pages.length := List.mem_range.mp hi
      have hrmem : reference.pages.getD i default ∈ reference.pages := by
        rw [List.getD_eq_getElem reference.pages default hilt]
        exact List.getElem_mem _
      have hcmem : jp.2 ∈ candidate.pages := snd_mem_of_mem_enum _ _ hjp
      obtain ⟨hne2, hq1, himg⟩ := hrefok _ hrmem
      rw [simOf, hcget]
      exact pageSimilarity_le_of_disjoint _ _ i jp.1 _ _
        (hdisj _ hrmem _ hcmem hcne2) hne2 hq1 (hcandok _ hcmem) himg)
  refine ⟨?_, ?_⟩
  · rw [← hp, renumberPairs_length,
      List.Perm.length_eq (sortPairsByRef_perm _), hcontent.1, List.enum_length]
  · intro pr hpr
    rw [← hp] at hpr
    obtain ⟨q, hq, href, hcand, _⟩ := renumberPairs_mem _ pr hpr
    have hqmem := (sortPairsByRef_perm _).mem_iff.mp hq
    rw [href, hcand]
    exact hcontent.2 q hqmem

/-! ### Concrete permutation fixtures -/

def linesA : List String := ["a1","a2","a3","a4","a5","a6","a7","a8","a9"]

def linesB : List String := ["a1","a2","a3","a4","a5","a6","a7","a8","b9"]

def pA0 : DocumentPage := ⟨0, linesA, none, none, []⟩

def pA1 : DocumentPage := ⟨1, linesB, none, none, []⟩

def pB0 : DocumentPage := ⟨0, linesB, none, none, []⟩

def pB1 : DocumentPage := ⟨1, linesA, none, none, []⟩

def refPerm : DocumentData := ⟨"r", [], "s", [pA0, pA1], []⟩

def candPerm : DocumentData := ⟨"c", [], "s", [pB0, pB1], []⟩

lemma ratio_AB : (compareSequences linesA linesB 10).match_ratio = 8/9 := by
  have hm : (compareSequences linesA linesB 10).matching_lines = 8 := by decide
  have ht : (compareSequences linesA linesB 10).total_lines = 9 := by decide
  rw [LineComparison.match_ratio, hm, ht]
  norm_num

lemma ratio_BA : (compareSequences linesB linesA 10).match_ratio = 8/9 := by
  have hm : (compareSequences linesB linesA 10).matching_lines = 8 := by decide
  have ht : (compareSequences linesB linesA 10).total_lines = 9 := by decide
  rw [LineComparison.match_ratio, hm, ht]
  norm_num

lemma pageSimilarity_eval (rp cp : DocumentPage) (i j m n : ℕ) (r o : ℚ)
    (hcs : contentScores rp cp = [r]) (ho : orderScoreOf i j m n = o) :
    pageSimilarity rp cp i j m n = max 0 (min 1 (r * (4/5) + o * (1/5))) := by
  rw [pageSimilarity, hcs, ho]
  norm_num

lemma orderScoreOf_10 : orderScoreOf 1 0 2 2 = 1/2 := by
  rw [orderScoreOf]
  have hmax : (max 2 (max 2 1) : ℕ) = 2 := by decide
  rw [hmax]
  have habs : |((1 : ℕ) : ℚ) - ((0 : ℕ) : ℚ)| = 1 := by norm_num
  rw [habs]
  norm_num [min_def]

lemma simPerm00 : simOf [pA0, pA1] [pB0, pB1] 0 0 = 41/45 := by
  rw [simOf]
  show pageSimilarity pA0 pB0 0 0 2 2 = 41/45
  have hta : pA0.text_lines = linesA := rfl
  have htb : pB0.text_lines = linesB := rfl
  have hcs : contentScores pA0 pB0 = [8/9] := by
    rw [contentScores, textScoresOf, hta, htb,
      if_pos (Or.inl (by decide : linesA ≠ [])), ratio_AB,
      imageScoresOf_none pA0 pB0 rfl]
    rfl
  rw [pageSimilarity_eval pA0 pB0 0 0 2 2 (8/9) 1 hcs (orderScoreOf_self 0 2 2)]
  rw [min_eq_right (by norm_num : (8/9 : ℚ) * (4/5) + 1 * (1/5) ≤ 1),
    max_eq_right (by norm_num : (0:ℚ) ≤ (8/9 : ℚ) * (4/5) + 1 * (1/5))]
  norm_num

lemma simPerm10 : simOf [pA0, pA1] [pB0, pB1] 1 0 = 9/10 := by
  rw [simOf]
  show pageSimilarity pA1 pB0 1 0 2 2 = 9/10
  have hta : pA1.text_lines = linesB := rfl
  have htb : pB0.text_lines = linesB := rfl
  have hcs : contentScores pA1 pB0 = [1] := by
    rw [contentScores, textScoresOf, hta, htb,
      if_pos (Or.inl (by decide : linesB ≠ [])), compareSequences_self_ratio,
      imageScoresOf_none pA1 pB0 rfl]
    rfl
  rw [pageSimilarity_eval pA1 pB0 1 0 2 2 1 (1/2) hcs orderScoreOf_10]
  rw [min_eq_right (by norm_num : (1 : ℚ) * (4/5) + (1/2) * (1/5) ≤ 1),
    max_eq_right (by norm_num : (0:ℚ) ≤ (1 : ℚ) * (4/5) + (1/2) * (1/5))]
  norm_num

lemma simPerm11 : simOf [pA0, pA1] [pB0, pB1] 1 1 = 41/45 := by
  rw [simOf]
  show pageSimilarity pA1 pB1 1 1 2 2 = 41/45
  have hta : pA1.text_lines = linesB := rfl
  have htb : pB1.text_lines = linesA := rfl
  have hcs : contentScores pA1 pB1 = [8/9] := by
    rw [contentScores, textScoresOf, hta, htb,
      if_pos (Or.inl (by decide : linesB ≠ [])), ratio_BA,
      imageScoresOf_none pA1 pB1 rfl]
    rfl
  rw [pageSimilarity_eval pA1 pB1 1 1 2 2 (8/9) 1 hcs (orderScoreOf_self 1 2 2)]
  rw [min_eq_right (by norm_num : (8/9 : ℚ) * (4/5) + 1 * (1/5) ≤ 1),
    max_eq_right (by norm_num : (0:ℚ) ≤ (8/9 : ℚ) * (4/5) + 1 * (1/5))]
  norm_num

lemma greedyPerm_eval : greedyAssign (simOf [pA0, pA1] [pB0, pB1]) (3/5)
    [pA0, pA1] [(0, pB0), (1, pB1)] [0, 1] 0
    = ([⟨0, pA0, pB0, 41/45⟩, ⟨1, pA1, pB1, 41/45⟩], [], []) := by
  have hstep2 : greedyAssign (simOf [pA0, pA1] [pB0, pB1]) (3/5)
      [pA0, pA1] [(1, pB1)] [1] 1
      = ([⟨1, pA1, pB1, 41/45⟩], [], []) := by
    rw [greedyAssign]
    simp only [argmaxFrom, simPerm11]
    rw [if_neg (by norm_num : ¬(41/45 : ℚ) < 3/5)]
    rw [greedyAssign]
    rfl
  rw [greedyAssign]
  simp only [argmaxFrom, simPerm00, simPerm10]
  rw [if_neg (by norm_num : ¬(41/45 : ℚ) < 9/10)]
  rw [simPerm00]
  rw [if_neg (by norm_num : ¬(41/45 : ℚ) < 3/5)]
  have herase : ([0, 1] : List ℕ).erase 0 = [1] := rfl
  rw [herase, hstep2]
  rfl

/-- C7 counterexample: candidate pages are a permutation of the reference
pages (contents swapped), yet the greedy aligner pairs candidate page 0
(content = reference page 1's content) with reference page 0: the two
reference pages share 8 of their 9 lines, so the positionally closer page
scores 8/9·0.8 + 1·0.2 = 41/45, beating the exact-content page at distance
1, which scores 1·0.8 + 0.5·0.2 = 9/10 < 41/45. The original per-content
mapping is NOT recovered. -/
theorem alignment_permutation_counterexample :
    (align_documents refPerm candPerm (3/5)).map
        (fun out => out.1.map
          (fun pr => (pr.reference.text_lines, pr.candidate.text_lines)))
      = some [(linesA, linesB), (linesB, linesA)]
    ∧ linesA ≠ linesB := by
  constructor
  · rw [align_documents_eq_core]
    have heval : alignCore refPerm candPerm (3/5)
        = ([⟨0, pA0, pB0, 41/45⟩, ⟨1, pA1, pB1, 41/45⟩], []) := by
      rw [alignCore, if_neg (by simp [refPerm, candPerm, pA0, pB0])]
      have henum : candPerm.pages.enum = [(0, pB0), (1, pB1)] := rfl
      have hrange : List.range refPerm.pages.length = [0, 1] := rfl
      have hpag : refPerm.pages = [pA0, pA1] := rfl
      have hcag : candPerm.pages = [pB0, pB1] := rfl
      rw [henum, hrange, hpag, hcag, greedyPerm_eval]
      rfl
    rw [heval]
    rfl
  · decide

/-- The spec's own example: reference pages [alpha],[beta],[gamma],
candidate reordered to [beta],[gamma],[alpha]. -/
def refPermW : DocumentData :=
  ⟨"r", [], "s", [⟨0, ["alpha"], none, none, []⟩, ⟨1, ["beta"], none, none, []⟩,
    ⟨2, ["gamma"], none, none, []⟩], []⟩

def candPermW : DocumentData :=
  ⟨"c", [], "s", [⟨0, ["beta"], none, none, []⟩, ⟨1, ["gamma"], none, none, []⟩,
    ⟨2, ["alpha"], none, none, []⟩], []⟩

/-- Witness for `alignment_permutation_amended` on the spec's example. -/
theorem alignment_permutation_amended_witness :
    (align_documents refPermW candPermW (3/5)).map
        (fun out => (out.1.length,
          out.1.map (fun pr =>
            decide (pr.reference.text_lines = pr.candidate.text_lines))))
      = some (3, [true, true, true]) := by
  have hcore := align_documents_eq_core refPermW candPermW (3/5)
  have h := alignment_permutation_amended refPermW candPermW
    (by simp [refPermW])
    (by decide)
    (by decide)
    (by decide)
    (by decide)
    (alignCore refPermW candPermW (3/5)).1 (alignCore refPermW candPermW (3/5)).2
    (by exact hcore)
  rw [hcore]
  simp only [Option.map_some']
  refine congrArg some ?_
  have hlen : (alignCore refPermW candPermW (3/5)).1.length = 3 := by
    rw [h.1]
    rfl
  have hmap : (alignCore refPermW candPermW (3/5)).1.map
      (fun pr => decide (pr.reference.text_lines = pr.candidate.text_lines))
      = [true, true, true] := by
    have hrepl : ([true, true, true] = List.replicate 3 true) := rfl
    rw [hrepl, List.eq_replicate_iff]
    constructor
    · rw [List.length_map, hlen]
    · intro b hb
      obtain ⟨pr, hpr, hb2⟩ := List.mem_map.mp hb
      rw [← hb2, decide_eq_true_eq]
      exact h.2 pr hpr
  rw [hlen, hmap]

end QAFax
